import Mathlib

/-!
Verification development for the Lalikan backup scheduler.

This file gives a shallow embedding of the scheduling core of the
repository (src/src/lalikan/database.py, src/src/lalikan/runner.py and
src/src/lalikan/properties.py) and proves, or refutes, the frozen claims
about it.

Modelling conventions for the scheduling layer:

* A point in time (Python `datetime.datetime`) and a time difference
  (Python `datetime.timedelta`) are both modelled as an integer number of
  microseconds; `datetime` and `timedelta` have exactly microsecond
  resolution, and addition, subtraction and comparison of them is exactly
  integer arithmetic on those microsecond counts.  Points in time count
  microseconds since 0001-01-01 00:00:00, the smallest Python `datetime`
  (so real points in time are nonnegative; the embedding does not model
  the year-9999 overflow of `datetime`).

* `BackupProperties.__lt__` compares `date_string` values, i.e. the
  `strftime` rendering with format `%Y-%m-%d_%H%M`, which truncates a
  `datetime` to whole minutes.  Lexicographic comparison of two such
  fixed-width renderings (15 characters, zero padded fields, identical
  separators) orders them exactly like the minute-truncated time values,
  because the calendar-field representation of a nonnegative minute count
  is componentwise monotone.  The embedding therefore compares dated
  entries through `dateKey`, the microsecond value divided by the number
  of microseconds per minute.  The rendering itself, including the
  behaviour of the literal string rendered for a missing date, is
  modelled faithfully at character level further below for the claims
  that are about strings.
-/

namespace Lalikan

/-- Microseconds per minute: `date_string` truncates to this unit. -/
def microsPerMinute : Int := 60000000

/-- Microseconds per day: `days_overdue` divides by `timedelta(days=1)`. -/
def microsPerDay : Int := 86400000000

/-- Sort key modelling the `strftime %Y-%m-%d_%H%M` rendering of a dated
entry: comparison of the rendered strings equals comparison of the
minute-truncated times. -/
def dateKey (t : Int) : Int := t / microsPerMinute

/-- `lalikan.properties.BackupProperties`: a pair of an optional date and
a backup level (0 = full, 1 = diff, 2 = incr).  The source stores the
level as a plain integer and derives `date_string` and `suffix` from the
two fields. -/
structure BackupProperties where
  date : Option Int
  level : Nat
deriving DecidableEq, Repr

/-- `BackupProperties.is_valid`: does the entry carry a date? -/
def BackupProperties.isValid (b : BackupProperties) : Bool :=
  b.date.isSome

/-- Date of an entry that is known to carry one.  The source accesses
`backup.date` directly at the corresponding places; every list the
schedule machinery builds only ever contains dated entries, which the
theorems below establish where it matters. -/
def dateD (b : BackupProperties) : Int :=
  b.date.getD 0

/-- `BackupProperties.__lt__` as a boolean: compare the `date_string`
values, and on equal strings compare the levels.  A missing date renders
as the literal string rendered for `None`, which compares greater than
every `%Y` rendering because its first character is a letter and theirs
is a digit (proved in the character-level model below). -/
def propLtB (a b : BackupProperties) : Bool :=
  match a.date, b.date with
  | some x, some y =>
      if dateKey x = dateKey y then decide (a.level < b.level)
      else decide (dateKey x < dateKey y)
  | some _, none => true
  | none, some _ => false
  | none, none => decide (a.level < b.level)

/-- The non-strict comparison used to model `sorted`/`list.sort`: Python
places `a` no later than `b` exactly when `not (b < a)`. -/
def propLe (a b : BackupProperties) : Prop :=
  propLtB b a = false

instance : DecidableRel propLe := fun a b => by
  unfold propLe; infer_instance

/-- Unfolded form of `propLtB` as a lexicographic comparison on
(presence of a date, minute key, level). -/
theorem propLtB_eq_true_iff (a b : BackupProperties) :
    propLtB a b = true ↔
      (match a.date, b.date with
       | some x, some y =>
           dateKey x < dateKey y ∨ (dateKey x = dateKey y ∧ a.level < b.level)
       | some _, none => True
       | none, some _ => False
       | none, none => a.level < b.level) := by
  rcases ha : a.date with _ | x <;> rcases hb : b.date with _ | y <;>
    simp [propLtB, ha, hb] <;>
    by_cases h : dateKey x = dateKey y <;> simp [h] <;> omega

theorem propLt_asymm (a b : BackupProperties)
    (h : propLtB a b = true) : propLtB b a = false := by
  rcases hab : propLtB b a with _ | _
  · rfl
  · rw [propLtB_eq_true_iff] at h hab
    rcases ha : a.date with _ | x <;> rcases hb : b.date with _ | y <;>
      rw [ha, hb] at h hab <;> simp at h hab <;> omega

instance : IsTotal BackupProperties propLe where
  total a b := by
    unfold propLe
    rcases h : propLtB b a with _ | _
    · exact Or.inl rfl
    · exact Or.inr (propLt_asymm b a h)

instance : IsTrans BackupProperties propLe where
  trans a b c hab hbc := by
    unfold propLe at *
    rcases h : propLtB c a with _ | _
    · rfl
    · exfalso
      rw [propLtB_eq_true_iff] at h
      have hba : ¬ propLtB b a = true := by simp [hab]
      have hcb : ¬ propLtB c b = true := by simp [hbc]
      rw [propLtB_eq_true_iff] at hba hcb
      rcases ha : a.date with _ | x <;> rcases hb : b.date with _ | y <;>
        rcases hc : c.date with _ | z <;>
        rw [ha, hc] at h <;> rw [hb, ha] at hba <;> rw [hc, hb] at hcb <;>
        simp at h hba hcb <;> omega

/-- Model of Python `sorted` and `list.sort`: a stable sort with respect
to `__lt__`.  Insertion sort with the reflected non-strict relation is a
stable sort for the same strict weak order, and any two stable sorts of
the same list agree elementwise, so this models the source exactly. -/
def pySorted (l : List BackupProperties) : List BackupProperties :=
  List.insertionSort propLe l

theorem pySorted_perm (l : List BackupProperties) :
    List.Perm (pySorted l) l :=
  List.perm_insertionSort propLe l

theorem pySorted_sorted (l : List BackupProperties) :
    (pySorted l).Sorted propLe :=
  List.sorted_insertionSort propLe l

/-- The `while current_start_time <= self.point_in_time` loop of
`calculate_backup_schedule`: repeatedly add the full interval until the
time passes `now`.  The source loop does not terminate on a nonpositive
interval; the configuration validates intervals as positive, and the
guard makes the function total without changing its value anywhere the
source is defined. -/
def advancePast (I now t : Int) : Int :=
  if h : 0 < I ∧ t ≤ now then advancePast I now (t + I) else t
termination_by ((now - t) / I + 1).toNat
decreasing_by
  obtain ⟨hI, hle⟩ := h
  have hrw : now - (t + I) = now - t + (-1) * I := by ring
  have hdiv : (now - t + (-1) * I) / I = (now - t) / I + (-1) :=
    Int.add_mul_ediv_right _ _ (by omega)
  have hpos : 0 ≤ (now - t) / I := Int.ediv_nonneg (by omega) (by omega)
  rw [hrw, hdiv]
  omega

/-- The inner `while start_time < end_time` loop of `_fill_schedule`:
emit `t`, `t + I`, ... strictly below `fin`.  Same guard treatment as
`advancePast`. -/
def fillLoop (I fin t : Int) : List Int :=
  if h : 0 < I ∧ t < fin then t :: fillLoop I fin (t + I) else []
termination_by ((fin - t) / I + 1).toNat
decreasing_by
  obtain ⟨hI, hlt⟩ := h
  have hrw : fin - (t + I) = fin - t + (-1) * I := by ring
  have hdiv : (fin - t + (-1) * I) / I = (fin - t) / I + (-1) :=
    Int.add_mul_ediv_right _ _ (by omega)
  have hpos : 0 ≤ (fin - t) / I := Int.ediv_nonneg (by omega) (by omega)
  rw [hrw, hdiv]
  omega

/-- The outer loop of `_fill_schedule`: for each adjacent pair of the
existing schedule, walk from the earlier date plus one interval strictly
up to the later date, collecting new entries of the given level. -/
def fillPairs (I : Int) (lvl : Nat) : List BackupProperties → List BackupProperties
  | a :: b :: rest =>
      (fillLoop I (dateD b) (dateD a + I)).map (fun t => ⟨some t, lvl⟩)
        ++ fillPairs I lvl (b :: rest)
  | _ => []

/-- Configuration values the scheduling core reads: `start-time` (a
point in time, whole minutes because it is parsed with the canonical
format) and the three intervals (timedeltas). -/
structure Settings where
  startTime : Int
  intervalFull : Int
  intervalDiff : Int
  intervalIncr : Int

/-- Valid settings in the sense of the claims:
`0 < interval_incr <= interval_diff <= interval_full`. -/
def Settings.Valid (s : Settings) : Prop :=
  0 < s.intervalIncr ∧ s.intervalIncr ≤ s.intervalDiff ∧
    s.intervalDiff ≤ s.intervalFull

/-- `BackupDatabase._fill_schedule`: pick the interval from the level
(1 = diff, 2 = incr; the source raises on any other level and is only
called with these two), extend the schedule with the newly generated
entries and sort the result. -/
def fillSchedule (s : Settings) (schedule : List BackupProperties)
    (lvl : Nat) : List BackupProperties :=
  let I := if lvl = 1 then s.intervalDiff else s.intervalIncr
  pySorted (schedule ++ fillPairs I lvl schedule)

/-- `BackupDatabase.calculate_backup_schedule`: find the upcoming full
backup strictly after `now`, prepend the previous one when it does not
precede the start time, and fill the window with diff and incr levels. -/
def calculateBackupSchedule (s : Settings) (now : Int) :
    List BackupProperties :=
  let upcoming := advancePast s.intervalFull now s.startTime
  let schedule0 : List BackupProperties := [⟨some upcoming, 0⟩]
  let previous := upcoming - s.intervalFull
  let schedule1 :=
    if s.startTime ≤ previous then ⟨some previous, 0⟩ :: schedule0
    else schedule0
  if 1 < schedule1.length then fillSchedule s (fillSchedule s schedule1 1) 2
  else schedule1

/-- An existing backup as reported by the directory scan: the parsed
date (whole minutes, since the directory name is parsed with the
canonical format) and the level decoded from the suffix.  The scan layer
itself is modelled at character level further below; the decision layer
takes the resulting list as its view of the disk. -/
structure Backup where
  date : Int
  level : Nat
deriving DecidableEq, Repr

/-- The scan emits `BackupProperties(date, backup_level)` for each valid
backup directory. -/
def Backup.toProps (b : Backup) : BackupProperties :=
  ⟨some b.date, b.level⟩

/-- `BackupDatabase.find_existing_backups`: sort the scanned backups,
then, when a bound is given, keep only those dated no later than it. -/
def findExistingBackups (disk : List Backup) (priorTo : Option Int) :
    List BackupProperties :=
  let existing := pySorted (disk.map Backup.toProps)
  match priorTo with
  | some p => existing.filter (fun b => decide (dateD b ≤ p))
  | none => existing

/-- `BackupDatabase.last_existing_backup`: the last entry of the sorted
scan at or before `now` whose level is accepted for `backup_level`
(i.e. at most `backup_level`; the accepted levels are the slice
`(0, 1, 2)[0:level + 1]`), or an invalid entry. -/
def lastExistingBackup (disk : List Backup) (now : Int) (lvl : Nat) :
    BackupProperties :=
  let existing := findExistingBackups disk (some now)
  if existing.isEmpty then ⟨none, lvl⟩
  else
    match existing.reverse.find? (fun b => decide (b.level ≤ lvl)) with
    | some b => b
    | none => ⟨none, lvl⟩

/-- `BackupDatabase._current_scheduled_backup`: walk the schedule
backwards and return the first entry of an accepted level that does not
lie in the future, or an invalid entry. -/
def currentScheduledBackup (s : Settings) (now : Int) (lvl : Nat) :
    BackupProperties :=
  match (calculateBackupSchedule s now).reverse.find?
      (fun b => decide (b.level ≤ lvl) && decide (dateD b ≤ now)) with
  | some b => b
  | none => ⟨none, lvl⟩

/-- Microseconds from 0001-01-01 to 1970-01-01 (719162 days): the value
`datetime.datetime(1970, 1, 1)` that `last_scheduled_backup` substitutes
for the date of an invalid last existing backup. -/
def epoch1970 : Int := 62135596800000000

/-- The `for test_level in range(backup_level + 1)` loop of
`BackupDatabase.last_scheduled_backup`: return the current scheduled
backup of the first test level that either is the requested level itself
or is valid and strictly newer than the last existing backup.  The
source loop always returns before falling through (the requested level
is the last test level); the empty case is therefore unreachable. -/
def lastScheduledLoop (s : Settings) (now lastExDate : Int) (lvl : Nat) :
    List Nat → BackupProperties
  | [] => ⟨none, lvl⟩
  | t :: rest =>
      let needed := currentScheduledBackup s now t
      if t = lvl then needed
      else if needed.isValid = true ∧ lastExDate < dateD needed then needed
      else lastScheduledLoop s now lastExDate lvl rest

/-- `BackupDatabase.last_scheduled_backup`: substitute the 1970 epoch
for the date of an invalid last existing backup, then run the
escalation loop over the test levels `0 .. backup_level`. -/
def lastScheduledBackup (s : Settings) (disk : List Backup) (now : Int)
    (lvl : Nat) : BackupProperties :=
  let lastEx := lastExistingBackup disk now lvl
  let lastExDate := if lastEx.isValid = true then dateD lastEx else epoch1970
  lastScheduledLoop s now lastExDate lvl (List.range (lvl + 1))

/-- `BackupDatabase.next_scheduled_backup`: the first schedule entry of
an accepted level strictly after `now`.  The source asserts that the
loop always finds one; the embedding returns an option, and the
theorems below show it is always some for valid settings. -/
def nextScheduledBackup (s : Settings) (now : Int) (lvl : Nat) :
    Option BackupProperties :=
  (calculateBackupSchedule s now).find?
    (fun b => decide (b.level ≤ lvl) && decide (now < dateD b))

/-- `BackupDatabase.days_overdue`: pick the reference entry by the
four-way case split of the source, subtract its date from `now` and
divide by one day.  Python performs the division on `timedelta` values;
its sign and zeroness agree with the exact rational value used here.
The result is `none` when `next_scheduled_backup` finds nothing, in
which case the source dies on an assertion. -/
def daysOverdue (s : Settings) (disk : List Backup) (now : Int)
    (lvl : Nat) : Option ℚ :=
  let lastSched := lastScheduledBackup s disk now lvl
  let lastEx := lastExistingBackup disk now lvl
  match nextScheduledBackup s now lvl with
  | none => none
  | some nextSched =>
      let scheduled :=
        if lastSched.isValid = false then nextSched
        else if lastEx.isValid = false then lastSched
        else if dateD lastEx < dateD lastSched then lastSched
        else nextSched
      some (((now - dateD scheduled : Int) : ℚ) / (microsPerDay : ℚ))

/-- `BackupDatabase.backup_needed`: the first level (full, diff, incr)
whose overdue count is nonnegative; otherwise `-1` when forced and the
schedule has begun; otherwise no backup.  The outer option is `none`
when a `days_overdue` call the source would actually perform dies on
its internal assertion. -/
def backupNeeded (s : Settings) (disk : List Backup) (now : Int)
    (force : Bool) : Option (Option Int) :=
  match daysOverdue s disk now 0 with
  | none => none
  | some d0 =>
      if 0 ≤ d0 then some (some 0)
      else
        match daysOverdue s disk now 1 with
        | none => none
        | some d1 =>
            if 0 ≤ d1 then some (some 1)
            else
              match daysOverdue s disk now 2 with
              | none => none
              | some d2 =>
                  if 0 ≤ d2 then some (some 2)
                  else if force = true ∧ s.startTime ≤ now then
                    some (some (-1))
                  else some none

/-- Ordering of scanned backups, i.e. `BackupProperties.__lt__` applied
to the dated entries the scan produces. -/
def bLe (a b : Backup) : Prop :=
  propLe a.toProps b.toProps

instance : DecidableRel bLe := fun a b => by
  unfold bLe; infer_instance

instance : IsTotal Backup bLe where
  total a b := IsTotal.total (r := propLe) a.toProps b.toProps

instance : IsTrans Backup bLe where
  trans a b c hab hbc := IsTrans.trans (r := propLe) _ _ _ hab hbc

/-- Python `sorted` on scanned backups. -/
def pySortedDisk (l : List Backup) : List Backup :=
  List.insertionSort bLe l

theorem pySortedDisk_perm (l : List Backup) :
    List.Perm (pySortedDisk l) l :=
  List.perm_insertionSort bLe l

/-- Modelled from the spec: the level-filtered
`find_existing_backups(filter_level, prior_to)` that
`BackupRunner.find_existing_backups` delegates to.  The database module
in this snapshot only has the unfiltered variant; section 4.3 of the
specification defines the filtered one: keep backups of exactly
`filter_level` (with `-1` passing every level), keep those dated at or
before `prior_to` when it is given, and return them sorted. -/
def findExistingRunner (disk : List Backup) (filterLevel : Int)
    (priorTo : Option Int) : List Backup :=
  let sorted := pySortedDisk disk
  let byLevel :=
    if filterLevel = -1 then sorted
    else sorted.filter (fun b => decide ((b.level : Int) = filterLevel))
  match priorTo with
  | some p => byLevel.filter (fun b => decide (b.date ≤ p))
  | none => byLevel

/-- The next-to-last element (`existing_backups[-2]` in the source); only
ever used on lists of length at least two. -/
def nextToLast (l : List Backup) : Backup :=
  (l[l.length - 2]?).getD ⟨0, 0⟩

/-- The date of the previous (next-to-last) backup of the completed
level, `previous_backup.date` in the source. -/
def previousOf (disk : List Backup) (lvl : Nat) : Int :=
  (nextToLast (findExistingRunner disk (lvl : Int) none)).date

/-- First phase of the full case of `delete_old_backups`: every diff and
every incr dated at or before the previous full backup. -/
def pruneFullPhase1 (disk : List Backup) (pd : Int) : List Backup :=
  findExistingRunner disk 1 (some pd) ++ findExistingRunner disk 2 (some pd)

/-- The disk as later scans see it once the archive files (including the
catalog, which the `*.dar` glob matches) of the given backups have been
deleted: a backup without its catalog is invisible to the scan. -/
def diskAfter (disk : List Backup) (del : List Backup) : List Backup :=
  disk.filter (fun b => !decide (b ∈ del))

/-- The full case of `delete_old_backups`: after the first phase, rescan
for the remaining diffs and, when there are any, also delete every incr
dated at or before the most recent of them. -/
def pruneFull (disk : List Backup) : List Backup :=
  let pd := previousOf disk 0
  let phase1 := pruneFullPhase1 disk pd
  let disk1 := diskAfter disk phase1
  match (findExistingRunner disk1 1 none).getLast? with
  | some currentDiff =>
      phase1 ++ findExistingRunner disk1 2 (some currentDiff.date)
  | none => phase1

/-- `BackupRunner.delete_old_backups`, viewed as the list of backups
whose archive files get deleted: nothing for an incremental backup,
nothing when at most one backup of the completed level exists, and
otherwise the level-specific deletion phases. -/
def deleteOldBackups (disk : List Backup) (lvl : Nat) : List Backup :=
  if lvl = 2 then []
  else if (findExistingRunner disk (lvl : Int) none).length ≤ 1 then []
  else if lvl = 0 then pruneFull disk
  else findExistingRunner disk 2 (some (previousOf disk lvl))

/-- The backups still on disk after the pruning step. -/
def pruneSurvivors (disk : List Backup) (lvl : Nat) : List Backup :=
  diskAfter disk (deleteOldBackups disk lvl)

theorem mem_findRunner_none (disk : List Backup) (fl : Int) (b : Backup) :
    b ∈ findExistingRunner disk fl none ↔
      b ∈ disk ∧ (fl = -1 ∨ (b.level : Int) = fl) := by
  unfold findExistingRunner
  by_cases h : fl = -1 <;>
    simp [h, List.mem_filter, (pySortedDisk_perm disk).mem_iff]

theorem mem_findRunner_some (disk : List Backup) (fl : Int) (p : Int)
    (b : Backup) :
    b ∈ findExistingRunner disk fl (some p) ↔
      b ∈ disk ∧ (fl = -1 ∨ (b.level : Int) = fl) ∧ b.date ≤ p := by
  unfold findExistingRunner
  by_cases h : fl = -1 <;>
    simp [h, List.mem_filter, (pySortedDisk_perm disk).mem_iff] <;>
    tauto

theorem nextToLast_mem (l : List Backup) (h : 2 ≤ l.length) :
    nextToLast l ∈ l := by
  unfold nextToLast
  have hlt : l.length - 2 < l.length := by omega
  rw [List.getElem?_eq_getElem hlt]
  exact List.getElem_mem hlt

theorem mem_findRunner_nonneg_some (disk : List Backup) (fl p : Int)
    (b : Backup) (hfl : 0 ≤ fl) :
    b ∈ findExistingRunner disk fl (some p) ↔
      b ∈ disk ∧ (b.level : Int) = fl ∧ b.date ≤ p := by
  rw [mem_findRunner_some]
  constructor
  · rintro ⟨h1, h2 | h2, h3⟩
    · omega
    · exact ⟨h1, h2, h3⟩
  · rintro ⟨h1, h2, h3⟩
    exact ⟨h1, Or.inr h2, h3⟩

theorem mem_findRunner_nonneg_none (disk : List Backup) (fl : Int)
    (b : Backup) (hfl : 0 ≤ fl) :
    b ∈ findExistingRunner disk fl none ↔
      b ∈ disk ∧ (b.level : Int) = fl := by
  rw [mem_findRunner_none]
  constructor
  · rintro ⟨h1, h2 | h2⟩
    · omega
    · exact ⟨h1, h2⟩
  · rintro ⟨h1, h2⟩
    exact ⟨h1, Or.inr h2⟩

theorem mem_diskAfter (disk del : List Backup) (b : Backup) :
    b ∈ diskAfter disk del ↔ b ∈ disk ∧ b ∉ del := by
  simp [diskAfter, List.mem_filter]

theorem mem_pruneFullPhase1 (disk : List Backup) (pd : Int) (b : Backup) :
    b ∈ pruneFullPhase1 disk pd ↔
      b ∈ disk ∧ (b.level = 1 ∨ b.level = 2) ∧ b.date ≤ pd := by
  unfold pruneFullPhase1
  rw [List.mem_append,
    mem_findRunner_nonneg_some disk 1 pd b (by norm_num),
    mem_findRunner_nonneg_some disk 2 pd b (by norm_num)]
  constructor
  · rintro (⟨h1, h2, h3⟩ | ⟨h1, h2, h3⟩)
    · exact ⟨h1, Or.inl (by omega), h3⟩
    · exact ⟨h1, Or.inr (by omega), h3⟩
  · rintro ⟨h1, h2 | h2, h3⟩
    · exact Or.inl ⟨h1, by omega, h3⟩
    · exact Or.inr ⟨h1, by omega, h3⟩

theorem mem_pruneFull (disk : List Backup) (b : Backup)
    (hb : b ∈ pruneFull disk) :
    b ∈ disk ∧ (b.level = 1 ∨ b.level = 2) := by
  simp only [pruneFull] at hb
  rcases hgl : (findExistingRunner
      (diskAfter disk (pruneFullPhase1 disk (previousOf disk 0))) 1
      none).getLast? with _ | cd <;> rw [hgl] at hb
  · rw [mem_pruneFullPhase1] at hb
    exact ⟨hb.1, hb.2.1⟩
  · rcases List.mem_append.mp hb with h | h
    · rw [mem_pruneFullPhase1] at h
      exact ⟨h.1, h.2.1⟩
    · rw [mem_findRunner_nonneg_some _ 2 _ b (by norm_num)] at h
      rw [mem_diskAfter] at h
      obtain ⟨⟨hd, _⟩, hl, _⟩ := h
      exact ⟨hd, Or.inr (by omega)⟩

theorem mem_deleteOldBackups (disk : List Backup) (lvl : Nat) (b : Backup)
    (hb : b ∈ deleteOldBackups disk lvl) :
    b ∈ disk ∧ (b.level = 1 ∨ b.level = 2) := by
  unfold deleteOldBackups at hb
  split at hb
  · simp at hb
  · split at hb
    · simp at hb
    · split at hb
      · exact mem_pruneFull disk b hb
      · rw [mem_findRunner_nonneg_some _ 2 _ b (by norm_num)] at hb
        exact ⟨hb.1, Or.inr (by omega)⟩

theorem deleteOldBackups_incr (disk : List Backup) :
    deleteOldBackups disk 2 = [] := by
  simp [deleteOldBackups]

theorem deleteOldBackups_of_short (disk : List Backup) (lvl : Nat)
    (h2 : lvl ≠ 2)
    (hlen : (findExistingRunner disk (lvl : Int) none).length ≤ 1) :
    deleteOldBackups disk lvl = [] := by
  unfold deleteOldBackups
  rw [if_neg h2, if_pos hlen]

theorem pruneSurvivors_of_nil (disk : List Backup) (lvl : Nat)
    (h : deleteOldBackups disk lvl = []) :
    pruneSurvivors disk lvl = disk := by
  simp [pruneSurvivors, diskAfter, h]

theorem deleteOldBackups_diff_eq (disk : List Backup)
    (hlen : 2 ≤ (findExistingRunner disk 1 none).length) :
    deleteOldBackups disk 1 =
      findExistingRunner disk 2 (some (previousOf disk 1)) := by
  unfold deleteOldBackups
  norm_num
  intro h
  omega

theorem deleteOldBackups_full_eq (disk : List Backup)
    (hlen : 2 ≤ (findExistingRunner disk 0 none).length) :
    deleteOldBackups disk 0 = pruneFull disk := by
  unfold deleteOldBackups
  norm_num
  intro h
  omega

theorem pruneFull_eq_none (disk : List Backup)
    (hgl : (findExistingRunner
      (diskAfter disk (pruneFullPhase1 disk (previousOf disk 0))) 1
      none).getLast? = none) :
    pruneFull disk = pruneFullPhase1 disk (previousOf disk 0) := by
  simp only [pruneFull]
  rw [hgl]

theorem pruneFull_eq_some (disk : List Backup) (cd : Backup)
    (hgl : (findExistingRunner
      (diskAfter disk (pruneFullPhase1 disk (previousOf disk 0))) 1
      none).getLast? = some cd) :
    pruneFull disk = pruneFullPhase1 disk (previousOf disk 0)
      ++ findExistingRunner
          (diskAfter disk (pruneFullPhase1 disk (previousOf disk 0))) 2
          (some cd.date) := by
  simp only [pruneFull]
  rw [hgl]

/-- C4: for every completed backup level (full, diff or incr) and every
set of existing backups, the pruning step never deletes a full backup:
no full backup is listed for deletion, and a full backup survives
pruning exactly when it was present before. -/
theorem prune_preserves_fulls (disk : List Backup) (lvl : Nat)
    (hl : lvl ≤ 2) :
    (∀ b ∈ deleteOldBackups disk lvl, b.level ≠ 0) ∧
    (∀ b : Backup, b.level = 0 →
      (b ∈ pruneSurvivors disk lvl ↔ b ∈ disk)) := by
  have hdel : ∀ b ∈ deleteOldBackups disk lvl, b.level ≠ 0 := by
    intro b hb
    have := mem_deleteOldBackups disk lvl b hb
    omega
  refine ⟨hdel, fun b hb0 => ?_⟩
  rw [pruneSurvivors, mem_diskAfter]
  exact ⟨And.left, fun hmem => ⟨hmem, fun hd => hdel b hd hb0⟩⟩

/-- Closed instance of `prune_preserves_fulls`. -/
theorem prune_preserves_fulls_witness :
    (0 : Nat) ≤ 2 ∧
    (∀ b ∈ deleteOldBackups
        [⟨0, 0⟩, ⟨60000000, 1⟩, ⟨120000000, 0⟩] 0, b.level ≠ 0) :=
  ⟨by decide,
    (prune_preserves_fulls [⟨0, 0⟩, ⟨60000000, 1⟩, ⟨120000000, 0⟩] 0
      (by decide)).1⟩

/-- A diff has a reference when some full backup in the set is dated no
later than it is. -/
def HasFullRef (l : List Backup) (b : Backup) : Prop :=
  ∃ f, f ∈ l ∧ f.level = 0 ∧ f.date ≤ b.date

/-- An incr has a reference when some other backup (of any level) in the
set is dated no later than it is. -/
def HasAnyRef (l : List Backup) (b : Backup) : Prop :=
  ∃ r, r ∈ l ∧ r ≠ b ∧ r.date ≤ b.date

/-- Reference safety of a set of backups: every diff and every incr has
a reference inside the set. -/
def ReferenceSafe (l : List Backup) : Prop :=
  (∀ b ∈ l, b.level = 1 → HasFullRef l b) ∧
  (∀ b ∈ l, b.level = 2 → HasAnyRef l b)

instance (l : List Backup) (b : Backup) : Decidable (HasFullRef l b) := by
  unfold HasFullRef; infer_instance

instance (l : List Backup) (b : Backup) : Decidable (HasAnyRef l b) := by
  unfold HasAnyRef; infer_instance

instance (l : List Backup) : Decidable (ReferenceSafe l) := by
  unfold ReferenceSafe; infer_instance

/-- C5 (amended): pruning preserves reference safety.  If, before
pruning, every diff has a full backup dated no later than itself and
every incr has some other backup dated no later than itself, then the
same holds of the surviving set after pruning for any completed
level. -/
theorem prune_reference_safe (disk : List Backup) (lvl : Nat)
    (hl : lvl ≤ 2) (hsafe : ReferenceSafe disk) :
    ReferenceSafe (pruneSurvivors disk lvl) := by
  by_cases h2 : lvl = 2
  · rw [h2, pruneSurvivors_of_nil disk 2 (deleteOldBackups_incr disk)]
    exact hsafe
  by_cases hlen : (findExistingRunner disk (lvl : Int) none).length ≤ 1
  · rw [pruneSurvivors_of_nil disk lvl
      (deleteOldBackups_of_short disk lvl h2 hlen)]
    exact hsafe
  have hlen2 : 2 ≤ (findExistingRunner disk (lvl : Int) none).length := by
    omega
  by_cases h0 : lvl = 0
  · subst h0
    norm_num at hlen2
    have hdel : deleteOldBackups disk 0 = pruneFull disk :=
      deleteOldBackups_full_eq disk hlen2
    have hsurv : ∀ b : Backup, b ∈ pruneSurvivors disk 0 ↔
        b ∈ disk ∧ b ∉ pruneFull disk := by
      intro b
      rw [pruneSurvivors, hdel, mem_diskAfter]
    have hF2mem : nextToLast (findExistingRunner disk 0 none)
        ∈ findExistingRunner disk 0 none := nextToLast_mem _ hlen2
    obtain ⟨hF2disk, hF2lvlI⟩ :=
      (mem_findRunner_nonneg_none disk 0 _ (by norm_num)).mp hF2mem
    have hF2lvl : (nextToLast (findExistingRunner disk 0 none)).level = 0 := by
      exact_mod_cast hF2lvlI
    have hpd : previousOf disk 0
        = (nextToLast (findExistingRunner disk 0 none)).date := by
      unfold previousOf
      norm_num
    have hF2surv : nextToLast (findExistingRunner disk 0 none)
        ∈ pruneSurvivors disk 0 := by
      rw [hsurv]
      refine ⟨hF2disk, fun hFd => ?_⟩
      have := mem_pruneFull disk _ hFd
      omega
    rcases hgl : (findExistingRunner
        (diskAfter disk (pruneFullPhase1 disk (previousOf disk 0))) 1
        none).getLast? with _ | cd
    · have hpf : pruneFull disk = pruneFullPhase1 disk (previousOf disk 0) :=
        pruneFull_eq_none disk hgl
      constructor
      · intro d hd hd1
        rw [hsurv] at hd
        obtain ⟨hddisk, hdnd⟩ := hd
        have hdgt : ¬ d.date ≤ previousOf disk 0 := fun hle =>
          hdnd (by rw [hpf, mem_pruneFullPhase1]
                   exact ⟨hddisk, Or.inl hd1, hle⟩)
        exact ⟨nextToLast (findExistingRunner disk 0 none), hF2surv,
          hF2lvl, by omega⟩
      · intro i hi hi2
        rw [hsurv] at hi
        obtain ⟨hidisk, hind⟩ := hi
        have higt : ¬ i.date ≤ previousOf disk 0 := fun hle =>
          hind (by rw [hpf, mem_pruneFullPhase1]
                   exact ⟨hidisk, Or.inr hi2, hle⟩)
        refine ⟨nextToLast (findExistingRunner disk 0 none), hF2surv,
          ?_, by omega⟩
        intro he
        rw [he] at hF2lvl
        omega
    · have hpf := pruneFull_eq_some disk cd hgl
      have hcdmem : cd ∈ findExistingRunner
          (diskAfter disk (pruneFullPhase1 disk (previousOf disk 0))) 1
          none := by
        obtain ⟨ys, hys⟩ := List.getLast?_eq_some_iff.mp hgl
        rw [hys]
        simp
      obtain ⟨hcddisk1, hcdlvlI⟩ :=
        (mem_findRunner_nonneg_none _ 1 cd (by norm_num)).mp hcdmem
      have hcdlvl : cd.level = 1 := by exact_mod_cast hcdlvlI
      rw [mem_diskAfter] at hcddisk1
      obtain ⟨hcddisk, hcdnph1⟩ := hcddisk1
      have hmemdel : ∀ b : Backup, b ∈ pruneFull disk ↔
          b ∈ pruneFullPhase1 disk (previousOf disk 0)
          ∨ (b ∈ diskAfter disk (pruneFullPhase1 disk (previousOf disk 0))
              ∧ (b.level : Int) = 2 ∧ b.date ≤ cd.date) := by
        intro b
        rw [hpf, List.mem_append,
          mem_findRunner_nonneg_some _ 2 _ b (by norm_num)]
      have hcdsurv : cd ∈ pruneSurvivors disk 0 := by
        rw [hsurv]
        refine ⟨hcddisk, fun hcdd => ?_⟩
        rcases (hmemdel cd).mp hcdd with h | h
        · exact hcdnph1 h
        · omega
      constructor
      · intro d hd hd1
        rw [hsurv] at hd
        obtain ⟨hddisk, hdnd⟩ := hd
        have hdgt : ¬ d.date ≤ previousOf disk 0 := fun hle =>
          hdnd ((hmemdel d).mpr (Or.inl
            ((mem_pruneFullPhase1 disk _ d).mpr
              ⟨hddisk, Or.inl hd1, hle⟩)))
        exact ⟨nextToLast (findExistingRunner disk 0 none), hF2surv,
          hF2lvl, by omega⟩
      · intro i hi hi2
        rw [hsurv] at hi
        obtain ⟨hidisk, hind⟩ := hi
        have hinph1 : i ∉ pruneFullPhase1 disk (previousOf disk 0) :=
          fun h => hind ((hmemdel i).mpr (Or.inl h))
        have higt : ¬ i.date ≤ previousOf disk 0 := fun hle =>
          hinph1 ((mem_pruneFullPhase1 disk _ i).mpr
            ⟨hidisk, Or.inr hi2, hle⟩)
        have hidisk1 : i ∈ diskAfter disk
            (pruneFullPhase1 disk (previousOf disk 0)) :=
          (mem_diskAfter disk _ i).mpr ⟨hidisk, hinph1⟩
        have hicd : ¬ i.date ≤ cd.date := fun hle =>
          hind ((hmemdel i).mpr (Or.inr
            ⟨hidisk1, by exact_mod_cast hi2, hle⟩))
        refine ⟨cd, hcdsurv, ?_, by omega⟩
        intro he
        rw [he] at hcdlvl
        omega
  · have h1 : lvl = 1 := by omega
    subst h1
    norm_num at hlen2
    have hdel : deleteOldBackups disk 1 =
        findExistingRunner disk 2 (some (previousOf disk 1)) :=
      deleteOldBackups_diff_eq disk hlen2
    have hmemdel : ∀ b : Backup, b ∈ deleteOldBackups disk 1 ↔
        b ∈ disk ∧ (b.level : Int) = 2 ∧ b.date ≤ previousOf disk 1 := by
      intro b
      rw [hdel, mem_findRunner_nonneg_some _ 2 _ b (by norm_num)]
    have hsurv : ∀ b : Backup, b ∈ pruneSurvivors disk 1 ↔
        b ∈ disk ∧ b ∉ deleteOldBackups disk 1 := by
      intro b
      rw [pruneSurvivors, mem_diskAfter]
    have hprevmem : nextToLast (findExistingRunner disk 1 none)
        ∈ findExistingRunner disk 1 none := nextToLast_mem _ hlen2
    obtain ⟨hprevdisk, hprevlvlI⟩ :=
      (mem_findRunner_nonneg_none disk 1 _ (by norm_num)).mp hprevmem
    have hprevlvl : (nextToLast (findExistingRunner disk 1 none)).level = 1 := by
      exact_mod_cast hprevlvlI
    have hpd : previousOf disk 1
        = (nextToLast (findExistingRunner disk 1 none)).date := by
      unfold previousOf
      norm_num
    constructor
    · intro d hd hd1
      rw [hsurv] at hd
      obtain ⟨f, hf, hf0, hfd⟩ := hsafe.1 d hd.1 hd1
      refine ⟨f, ?_, hf0, hfd⟩
      rw [hsurv]
      refine ⟨hf, fun hfdel => ?_⟩
      have := (hmemdel f).mp hfdel
      omega
    · intro i hi hi2
      rw [hsurv] at hi
      obtain ⟨hidisk, hind⟩ := hi
      have higt : ¬ i.date ≤ previousOf disk 1 := fun hle =>
        hind ((hmemdel i).mpr ⟨hidisk, by exact_mod_cast hi2, hle⟩)
      refine ⟨nextToLast (findExistingRunner disk 1 none), ?_, ?_, by omega⟩
      · rw [hsurv]
        refine ⟨hprevdisk, fun hdel' => ?_⟩
        have := (hmemdel _).mp hdel'
        omega
      · intro he
        rw [he] at hprevlvl
        omega

/-- Closed instance of `prune_reference_safe`. -/
theorem prune_reference_safe_witness :
    (1 : Nat) ≤ 2 ∧
    ReferenceSafe [⟨0, 0⟩, ⟨60000000, 2⟩, ⟨120000000, 1⟩, ⟨180000000, 1⟩] ∧
    ReferenceSafe (pruneSurvivors
      [⟨0, 0⟩, ⟨60000000, 2⟩, ⟨120000000, 1⟩, ⟨180000000, 1⟩] 1) :=
  ⟨by decide, by decide,
    prune_reference_safe
      [⟨0, 0⟩, ⟨60000000, 2⟩, ⟨120000000, 1⟩, ⟨180000000, 1⟩] 1
      (by decide) (by decide)⟩

/-- C5 as stated fails: pruning after an incremental backup deletes
nothing, so a diff dated before the most recent surviving full simply
remains, with its date strictly below that full backup. -/
theorem prune_reference_counterexample :
    ¬ (∀ b ∈ pruneSurvivors
          [⟨60000000, 1⟩, ⟨120000000, 0⟩, ⟨180000000, 2⟩] 2,
        b.level = 1 →
        ∀ f ∈ pruneSurvivors
            [⟨60000000, 1⟩, ⟨120000000, 0⟩, ⟨180000000, 2⟩] 2,
          f.level = 0 → f.date ≤ b.date) := by
  decide

/-- C6 (amended): pruning after a diff backup deletes exactly the incr
backups dated at or before the previous (next-to-last) diff backup; with
fewer than two diffs it deletes nothing.  An incr dated exactly at the
previous diff is deleted as well, because the date filter of the scan is
inclusive. -/
theorem prune_diff_deletes_covered_incrs (disk : List Backup) :
    ((disk.filter (fun b => b.level == 1)).length ≤ 1 →
      deleteOldBackups disk 1 = []) ∧
    (2 ≤ (disk.filter (fun b => b.level == 1)).length →
      ∀ b : Backup, b ∈ deleteOldBackups disk 1 ↔
        b ∈ disk ∧ b.level = 2 ∧ b.date ≤ previousOf disk 1) := by
  have hpq : ∀ c : Backup,
      (decide ((c.level : Int) = 1)) = (c.level == 1) := by
    intro c
    by_cases h : c.level = 1 <;> simp [h] <;> omega
  have hlen : (findExistingRunner disk 1 none).length
      = (disk.filter (fun b => b.level == 1)).length := by
    unfold findExistingRunner
    have h1 : (pySortedDisk disk).filter
        (fun b => decide ((b.level : Int) = 1))
        = (pySortedDisk disk).filter (fun b => b.level == 1) :=
      List.filter_congr (fun c _ => hpq c)
    simp only [if_neg (by norm_num : ¬ (1 : Int) = -1), h1]
    exact ((pySortedDisk_perm disk).filter _).length_eq
  constructor
  · intro hshort
    refine deleteOldBackups_of_short disk 1 (by norm_num) ?_
    norm_num
    omega
  · intro hlong b
    have hdel : deleteOldBackups disk 1 =
        findExistingRunner disk 2 (some (previousOf disk 1)) :=
      deleteOldBackups_diff_eq disk (by omega)
    rw [hdel, mem_findRunner_nonneg_some _ 2 _ b (by norm_num)]
    constructor
    · rintro ⟨h1, h2, h3⟩
      exact ⟨h1, by exact_mod_cast h2, h3⟩
    · rintro ⟨h1, h2, h3⟩
      exact ⟨h1, by exact_mod_cast h2, h3⟩

/-- Closed instance of `prune_diff_deletes_covered_incrs`. -/
theorem prune_diff_deletes_covered_incrs_witness :
    2 ≤ (List.filter (fun b => b.level == 1)
          ([⟨60000000, 2⟩, ⟨60000000, 1⟩, ⟨120000000, 1⟩] : List Backup)).length ∧
    ((⟨60000000, 2⟩ : Backup) ∈ deleteOldBackups
        [⟨60000000, 2⟩, ⟨60000000, 1⟩, ⟨120000000, 1⟩] 1 ↔
      (⟨60000000, 2⟩ : Backup)
          ∈ [(⟨60000000, 2⟩ : Backup), ⟨60000000, 1⟩, ⟨120000000, 1⟩]
        ∧ (⟨60000000, 2⟩ : Backup).level = 2
        ∧ (⟨60000000, 2⟩ : Backup).date ≤ previousOf
            [⟨60000000, 2⟩, ⟨60000000, 1⟩, ⟨120000000, 1⟩] 1) :=
  ⟨by decide,
    (prune_diff_deletes_covered_incrs
        [⟨60000000, 2⟩, ⟨60000000, 1⟩, ⟨120000000, 1⟩]).2
      (by decide) _⟩

/-- C6 as stated fails: an incr dated exactly at the previous diff is
deleted, because `find_existing_backups` filters with an inclusive
comparison; the claim says such an incr is kept. -/
theorem prune_diff_strict_counterexample :
    (⟨60000000, 2⟩ : Backup) ∈ deleteOldBackups
        [⟨60000000, 2⟩, ⟨60000000, 1⟩, ⟨120000000, 1⟩] 1
    ∧ ¬ ((⟨60000000, 2⟩ : Backup).date
          < previousOf [⟨60000000, 2⟩, ⟨60000000, 1⟩, ⟨120000000, 1⟩] 1) := by
  decide

theorem advancePast_of_stop (I now t : Int) (h : ¬ (0 < I ∧ t ≤ now)) :
    advancePast I now t = t := by
  rw [advancePast, dif_neg h]

theorem advancePast_of_step (I now t : Int) (h : 0 < I ∧ t ≤ now) :
    advancePast I now t = advancePast I now (t + I) := by
  conv_lhs => rw [advancePast]
  rw [dif_pos h]

/-- The exit value of the advance loop lies strictly after `now`. -/
theorem advancePast_gt (I now t : Int) (hI : 0 < I) :
    now < advancePast I now t := by
  induction t using advancePast.induct I now with
  | case1 x hx ih =>
      rw [advancePast_of_step I now x hx]
      exact ih
  | case2 x hx =>
      rw [advancePast_of_stop I now x hx]
      omega

/-- When the loop runs at least once, the value one interval before the
exit value does not lie after `now`. -/
theorem advancePast_sub_le (I now t : Int) (hI : 0 < I) (h : t ≤ now) :
    advancePast I now t - I ≤ now := by
  induction t using advancePast.induct I now with
  | case1 x hx ih =>
      rw [advancePast_of_step I now x hx]
      by_cases hnext : x + I ≤ now
      · exact ih hnext
      · rw [advancePast_of_stop I now (x + I) (by omega)]
        omega
  | case2 x hx =>
      omega

/-- The exit value of the advance loop is the start plus a whole number
of intervals. -/
theorem advancePast_exists_steps (I now t : Int) :
    ∃ k : Nat, advancePast I now t = t + k * I := by
  induction t using advancePast.induct I now with
  | case1 x hx ih =>
      obtain ⟨k, hk⟩ := ih
      refine ⟨k + 1, ?_⟩
      rw [advancePast_of_step I now x hx, hk]
      push_cast
      ring
  | case2 x hx =>
      refine ⟨0, ?_⟩
      rw [advancePast_of_stop I now x hx]
      simp

/-- Everything already in a schedule survives a fill pass. -/
theorem mem_fillSchedule_of_mem (s : Settings)
    (schedule : List BackupProperties) (lvl : Nat) (b : BackupProperties)
    (hb : b ∈ schedule) : b ∈ fillSchedule s schedule lvl := by
  unfold fillSchedule
  rw [(pySorted_perm _).mem_iff]
  exact List.mem_append.mpr (Or.inl hb)

/-- The upcoming full backup is always a member of the calculated
schedule. -/
theorem upcoming_mem_schedule (s : Settings) (now : Int) :
    (⟨some (advancePast s.intervalFull now s.startTime), 0⟩
      : BackupProperties) ∈ calculateBackupSchedule s now := by
  unfold calculateBackupSchedule
  dsimp only
  by_cases hprev : s.startTime
      ≤ advancePast s.intervalFull now s.startTime - s.intervalFull
  · rw [if_pos hprev]
    rw [if_pos (by simp)]
    exact mem_fillSchedule_of_mem _ _ _ _
      (mem_fillSchedule_of_mem _ _ _ _ (by simp))
  · rw [if_neg hprev]
    rw [if_neg (by simp)]
    simp

/-- For valid settings the source assertion in `next_scheduled_backup`
never fires: the schedule always contains a full backup strictly after
`now`. -/
theorem nextScheduledBackup_isSome (s : Settings) (disk : List Backup)
    (now : Int) (lvl : Nat) (hI : 0 < s.intervalFull) :
    ∃ b, nextScheduledBackup s now lvl = some b := by
  unfold nextScheduledBackup
  have hU := upcoming_mem_schedule s now
  have hgt := advancePast_gt s.intervalFull now s.startTime hI
  have hex : ∃ b ∈ calculateBackupSchedule s now,
      (decide (b.level ≤ lvl) && decide (now < dateD b)) = true := by
    refine ⟨_, hU, ?_⟩
    simp [dateD]
    omega
  rcases hfind : List.find?
      (fun b => decide (b.level ≤ lvl) && decide (now < dateD b))
      (calculateBackupSchedule s now) with _ | c
  · exfalso
    have hs := List.find?_isSome.mpr hex
    rw [hfind] at hs
    simp at hs
  · exact ⟨c, hfind⟩

theorem daysOverdue_isSome (s : Settings) (disk : List Backup)
    (now : Int) (lvl : Nat) (hI : 0 < s.intervalFull) :
    ∃ d, daysOverdue s disk now lvl = some d := by
  unfold daysOverdue
  obtain ⟨b, hb⟩ := nextScheduledBackup_isSome s disk now lvl hI
  rw [hb]
  exact ⟨_, rfl⟩

/-- The reference moment R exactly as claim C2 words it: the date of the
next scheduled backup when the last scheduled one is invalid; otherwise
the last scheduled date when the last existing one is invalid; otherwise
the last scheduled date when the last existing backup is older than the
last scheduled one; otherwise the date of the next scheduled backup. -/
def claimReference (s : Settings) (disk : List Backup) (now : Int)
    (lvl : Nat) (next : BackupProperties) : Int :=
  let lastSched := lastScheduledBackup s disk now lvl
  let lastEx := lastExistingBackup disk now lvl
  if lastSched.isValid = false then dateD next
  else if lastEx.isValid = false then dateD lastSched
  else if dateD lastEx < dateD lastSched then dateD lastSched
  else dateD next

/-- C2: for valid settings, any point in time, any disk contents and any
backup level, `days_overdue` is defined (its internal assertion cannot
fire) and equals `now` minus the reference moment of the claim,
expressed in fractional days. -/
theorem days_overdue_eq_reference (s : Settings) (hs : s.Valid)
    (disk : List Backup) (now : Int) (lvl : Nat) (hlvl : lvl ≤ 2) :
    ∃ next, nextScheduledBackup s now lvl = some next ∧
      daysOverdue s disk now lvl =
        some (((now - claimReference s disk now lvl next : Int) : ℚ)
          / (microsPerDay : ℚ)) := by
  have hI : 0 < s.intervalFull := by
    unfold Settings.Valid at hs
    omega
  obtain ⟨next, hnext⟩ := nextScheduledBackup_isSome s disk now lvl hI
  refine ⟨next, hnext, ?_⟩
  unfold daysOverdue claimReference
  rw [hnext]
  simp only [apply_ite dateD]

/-- Closed instance of `days_overdue_eq_reference`. -/
theorem days_overdue_eq_reference_witness :
    Settings.Valid ⟨0, 2, 2, 1⟩ ∧ (0 : Nat) ≤ 2 ∧
    (∃ next, nextScheduledBackup ⟨0, 2, 2, 1⟩ 0 0 = some next ∧
      daysOverdue ⟨0, 2, 2, 1⟩ [] 0 0 =
        some (((0 - claimReference ⟨0, 2, 2, 1⟩ [] 0 0 next : Int) : ℚ)
          / (microsPerDay : ℚ))) :=
  ⟨⟨by norm_num, by norm_num, by norm_num⟩, by norm_num,
    days_overdue_eq_reference ⟨0, 2, 2, 1⟩
      ⟨by norm_num, by norm_num, by norm_num⟩ [] 0 0 (by norm_num)⟩

/-- Before the start time, the schedule consists of the first full
backup alone. -/
theorem schedule_of_lt_start (s : Settings) (now : Int)
    (hI : 0 < s.intervalFull) (hnow : now < s.startTime) :
    calculateBackupSchedule s now = [⟨some s.startTime, 0⟩] := by
  unfold calculateBackupSchedule
  dsimp only
  have hU : advancePast s.intervalFull now s.startTime = s.startTime :=
    advancePast_of_stop _ _ _ (by omega)
  rw [hU]
  have hc1 : ¬ s.startTime ≤ s.startTime - s.intervalFull := by omega
  rw [if_neg hc1, if_neg (by simp)]

/-- Before the start time, no scheduled backup lies in the past. -/
theorem currentScheduled_of_lt_start (s : Settings) (now : Int)
    (lvl : Nat) (hI : 0 < s.intervalFull) (hnow : now < s.startTime) :
    currentScheduledBackup s now lvl = ⟨none, lvl⟩ := by
  unfold currentScheduledBackup
  rw [schedule_of_lt_start s now hI hnow]
  have hn : ¬ s.startTime ≤ now := by omega
  simp [dateD, hn]

/-- When every test level yields an invalid current scheduled backup,
the escalation loop returns an invalid entry. -/
theorem lastScheduledLoop_of_all_invalid (s : Settings) (now led : Int)
    (lvl : Nat) (tests : List Nat)
    (hall : ∀ t ∈ tests, currentScheduledBackup s now t = ⟨none, t⟩) :
    (lastScheduledLoop s now led lvl tests).isValid = false := by
  induction tests with
  | nil =>
      simp [lastScheduledLoop, BackupProperties.isValid]
  | cons t rest ih =>
      unfold lastScheduledLoop
      dsimp only
      rw [hall t (by simp)]
      by_cases ht : t = lvl
      · rw [if_pos ht]
        rfl
      · rw [if_neg ht, if_neg (by simp [BackupProperties.isValid])]
        exact ih (fun u hu => hall u (by simp [hu]))

/-- Before the start time, `days_overdue` counts down to the very first
scheduled full backup, for every backup level. -/
theorem daysOverdue_of_lt_start (s : Settings) (disk : List Backup)
    (now : Int) (lvl : Nat) (hI : 0 < s.intervalFull)
    (hnow : now < s.startTime) :
    daysOverdue s disk now lvl =
      some (((now - s.startTime : Int) : ℚ) / (microsPerDay : ℚ)) := by
  have hls : (lastScheduledBackup s disk now lvl).isValid = false := by
    unfold lastScheduledBackup
    exact lastScheduledLoop_of_all_invalid s now _ lvl _
      (fun t _ => currentScheduled_of_lt_start s now t hI hnow)
  have hns : nextScheduledBackup s now lvl = some ⟨some s.startTime, 0⟩ := by
    unfold nextScheduledBackup
    rw [schedule_of_lt_start s now hI hnow]
    simp [dateD, hnow]
  unfold daysOverdue
  rw [hns]
  dsimp only
  rw [if_pos hls]
  simp [dateD]

/-- Does `days_overdue` exist and come out nonnegative?  This is the
test claim C3 applies to each level in turn. -/
def overdueNonnegB (s : Settings) (disk : List Backup) (now : Int)
    (lvl : Nat) : Bool :=
  match daysOverdue s disk now lvl with
  | some d => decide (0 ≤ d)
  | none => false

/-- The needed-backup decision exactly as claim C3 words it: the first
level in the order full, diff, incr whose overdue count is nonnegative;
otherwise the forced marker `-1` exactly when forcing and the schedule
has begun; otherwise nothing. -/
def claimNeededLevel (s : Settings) (disk : List Backup) (now : Int)
    (force : Bool) : Option Int :=
  match ([0, 1, 2] : List Nat).find? (overdueNonnegB s disk now) with
  | some lvl => some (lvl : Int)
  | none => if force = true ∧ s.startTime ≤ now then some (-1) else none

/-- C3: for valid settings the decision never dies on the internal
assertion and returns exactly what the claim describes; in particular a
forced run before the start time returns nothing. -/
theorem backup_needed_eq_claim (s : Settings) (hs : s.Valid)
    (disk : List Backup) (now : Int) (force : Bool) :
    backupNeeded s disk now force
        = some (claimNeededLevel s disk now force) ∧
    (force = true → now < s.startTime →
      backupNeeded s disk now force = some none) := by
  have hI : 0 < s.intervalFull := by
    unfold Settings.Valid at hs
    omega
  obtain ⟨d0, h0⟩ := daysOverdue_isSome s disk now 0 hI
  obtain ⟨d1, h1⟩ := daysOverdue_isSome s disk now 1 hI
  obtain ⟨d2, h2⟩ := daysOverdue_isSome s disk now 2 hI
  have e0 : overdueNonnegB s disk now 0 = decide ((0 : ℚ) ≤ d0) := by
    unfold overdueNonnegB
    rw [h0]
  have e1 : overdueNonnegB s disk now 1 = decide ((0 : ℚ) ≤ d1) := by
    unfold overdueNonnegB
    rw [h1]
  have e2 : overdueNonnegB s disk now 2 = decide ((0 : ℚ) ≤ d2) := by
    unfold overdueNonnegB
    rw [h2]
  have hmain : backupNeeded s disk now force
      = some (claimNeededLevel s disk now force) := by
    unfold backupNeeded claimNeededLevel
    rw [h0, h1, h2]
    dsimp only
    by_cases c0 : (0 : ℚ) ≤ d0
    · rw [if_pos c0, List.find?_cons_of_pos _ (by rw [e0]; simpa using c0)]
      norm_num
    · rw [if_neg c0, List.find?_cons_of_neg _ (by rw [e0]; simpa using c0)]
      by_cases c1 : (0 : ℚ) ≤ d1
      · rw [if_pos c1, List.find?_cons_of_pos _ (by rw [e1]; simpa using c1)]
        norm_num
      · rw [if_neg c1, List.find?_cons_of_neg _ (by rw [e1]; simpa using c1)]
        by_cases c2 : (0 : ℚ) ≤ d2
        · rw [if_pos c2,
            List.find?_cons_of_pos _ (by rw [e2]; simpa using c2)]
          norm_num
        · rw [if_neg c2,
            List.find?_cons_of_neg _ (by rw [e2]; simpa using c2)]
          rw [List.find?_nil]
          dsimp only
          rw [apply_ite some]
  refine ⟨hmain, fun hf hlt => ?_⟩
  have hneg : (((now - s.startTime : Int) : ℚ) / (microsPerDay : ℚ)) < 0 := by
    have hn : (now - s.startTime : Int) < 0 := by omega
    have hd : (0 : ℚ) < (microsPerDay : ℚ) := by norm_num [microsPerDay]
    exact div_neg_of_neg_of_pos (by exact_mod_cast hn) hd
  have hov := fun lvl => daysOverdue_of_lt_start s disk now lvl hI hlt
  unfold backupNeeded
  rw [hov 0]
  dsimp only
  rw [if_neg (by exact fun hc => absurd hc (not_le.mpr hneg))]
  rw [hov 1]
  dsimp only
  rw [if_neg (by exact fun hc => absurd hc (not_le.mpr hneg))]
  rw [hov 2]
  dsimp only
  rw [if_neg (by exact fun hc => absurd hc (not_le.mpr hneg))]
  rw [if_neg (by rintro ⟨_, hle⟩; omega)]

/-- Closed instance of `backup_needed_eq_claim`. -/
theorem backup_needed_eq_claim_witness :
    Settings.Valid ⟨0, 2, 2, 1⟩ ∧
    (backupNeeded ⟨0, 2, 2, 1⟩ [] 0 true
        = some (claimNeededLevel ⟨0, 2, 2, 1⟩ [] 0 true) ∧
      (true = true → (0 : Int) < (⟨0, 2, 2, 1⟩ : Settings).startTime →
        backupNeeded ⟨0, 2, 2, 1⟩ [] 0 true = some none)) :=
  ⟨⟨by norm_num, by norm_num, by norm_num⟩,
    backup_needed_eq_claim ⟨0, 2, 2, 1⟩
      ⟨by norm_num, by norm_num, by norm_num⟩ [] 0 true⟩

/-!
Character-level model of dates, `strftime`/`strptime` with the canonical
format, the backup-directory name regex and the directory scan.  Python
strings are modelled as lists of characters; comparison is lexicographic
on code points, as in Python.
-/

/-- A Python `datetime.datetime`: calendar fields.  Comparison of
`datetime` values is lexicographic on the fields. -/
structure DateTime where
  year : Nat
  month : Nat
  day : Nat
  hour : Nat
  minute : Nat
  second : Nat
  usec : Nat
deriving DecidableEq, Repr

/-- Gregorian leap year, as `calendar.isleap` and `datetime` use it. -/
def isLeapYear (y : Nat) : Bool :=
  (y % 4 == 0 && y % 100 != 0) || (y % 400 == 0)

/-- Number of days of a month. -/
def daysInMonth (y m : Nat) : Nat :=
  if m = 2 then (if isLeapYear y then 29 else 28)
  else if m = 4 ∨ m = 6 ∨ m = 9 ∨ m = 11 then 30
  else 31

/-- The ranges `datetime.datetime` enforces on construction. -/
def DateTime.ValidB (d : DateTime) : Bool :=
  decide (1 ≤ d.year) && decide (d.year ≤ 9999)
    && decide (1 ≤ d.month) && decide (d.month ≤ 12)
    && decide (1 ≤ d.day) && decide (d.day ≤ daysInMonth d.year d.month)
    && decide (d.hour ≤ 23) && decide (d.minute ≤ 59)
    && decide (d.second ≤ 59) && decide (d.usec ≤ 999999)

/-- The decimal digit character for a single digit (only ever applied to
values below ten). -/
def digitChar (n : Nat) : Char :=
  match n with
  | 0 => '0'
  | 1 => '1'
  | 2 => '2'
  | 3 => '3'
  | 4 => '4'
  | 5 => '5'
  | 6 => '6'
  | 7 => '7'
  | 8 => '8'
  | _ => '9'

/-- Two-digit zero-padded rendering (`%m`, `%d`, `%H`, `%M`). -/
def pad2 (n : Nat) : List Char :=
  [digitChar (n / 10), digitChar (n % 10)]

/-- Four-digit zero-padded rendering (`%Y`; glibc does not zero-pad
years below 1000, so the theorems that depend on the exact digits assume
a four-digit year). -/
def pad4 (n : Nat) : List Char :=
  [digitChar (n / 1000), digitChar (n / 100 % 10),
   digitChar (n / 10 % 10), digitChar (n % 10)]

/-- `strftime` with the canonical format `%Y-%m-%d_%H%M`: note that
seconds and microseconds are dropped. -/
def fmtDateTime (d : DateTime) : List Char :=
  pad4 d.year ++ '-' :: (pad2 d.month ++ '-' :: (pad2 d.day
    ++ '_' :: (pad2 d.hour ++ pad2 d.minute)))

/-- The literal rendered for a missing date. -/
def noneString : List Char := ['N', 'o', 'n', 'e']

/-- `BackupProperties` at string level: optional calendar date plus
level, with `date_string` derived as in the source constructor. -/
structure BackupPropsDT where
  date : Option DateTime
  level : Nat
deriving DecidableEq, Repr

/-- `BackupProperties.date_string`: the canonical rendering, or the
rendering of the missing date. -/
def BackupPropsDT.dateString (b : BackupPropsDT) : List Char :=
  match b.date with
  | some d => fmtDateTime d
  | none => noneString

/-- The suffix tuple `('full', 'diff', 'incr')` indexed by level. -/
def levelSuffix (lvl : Nat) : List Char :=
  if lvl = 0 then ['f', 'u', 'l', 'l']
  else if lvl = 1 then ['d', 'i', 'f', 'f']
  else ['i', 'n', 'c', 'r']

/-- Python string comparison: lexicographic on code points. -/
def strLt : List Char → List Char → Bool
  | [], [] => false
  | [], _ :: _ => true
  | _ :: _, [] => false
  | a :: as, b :: bs =>
      if a.val < b.val then true
      else if b.val < a.val then false
      else strLt as bs

/-- `BackupProperties.__lt__` at string level: compare `date_string`
values, on equality compare levels. -/
def propDTlt (a b : BackupPropsDT) : Bool :=
  if a.dateString = b.dateString then decide (a.level < b.level)
  else strLt a.dateString b.dateString

/-- The reflected non-strict relation, for modelling `list.sort`. -/
def propDTle (a b : BackupPropsDT) : Prop :=
  propDTlt b a = false

instance : DecidableRel propDTle := fun a b => by
  unfold propDTle; infer_instance

/-- Python `sorted` at string level. -/
def sortDT (l : List BackupPropsDT) : List BackupPropsDT :=
  List.insertionSort propDTle l

/-- Is the character a decimal digit (the `[0-9]` character class)? -/
def isDigit (c : Char) : Bool :=
  decide (48 ≤ c.val) && decide (c.val ≤ 57)

/-- Decode a level from a three-letter suffix, as
`self._postfixes.index(suffix)` does. -/
def suffixLevel (suf : List Char) : Option Nat :=
  if suf = ['f', 'u', 'l', 'l'] then some 0
  else if suf = ['d', 'i', 'f', 'f'] then some 1
  else if suf = ['i', 'n', 'c', 'r'] then some 2
  else none

/-- The anchored backup-directory regex
`^([0-9]{4}-[0-9]{2}-[0-9]{2}_[0-9]{4})-(full|diff|incr)$`: every match
has exactly twenty characters, fifteen for the timestamp group and four
for the suffix group.  Returns the two captured groups. -/
def backupRegexMatch (name : List Char) :
    Option (List Char × List Char) :=
  match name with
  | [y1, y2, y3, y4, s1, a1, a2, s2, b1, b2, s3, c1, c2, e1, e2,
     sep, f1, f2, f3, f4] =>
      if (isDigit y1 && isDigit y2 && isDigit y3 && isDigit y4
          && (s1 == '-') && isDigit a1 && isDigit a2 && (s2 == '-')
          && isDigit b1 && isDigit b2 && (s3 == '_')
          && isDigit c1 && isDigit c2 && isDigit e1 && isDigit e2
          && (sep == '-')
          && (suffixLevel [f1, f2, f3, f4]).isSome) = true then
        some ([y1, y2, y3, y4, s1, a1, a2, s2, b1, b2, s3, c1, c2, e1, e2],
          [f1, f2, f3, f4])
      else none
  | _ => none

/-- Numeric value of a digit character. -/
def digitVal (c : Char) : Nat := c.val.toNat - 48

/-- `datetime.strptime(ts, self.date_format)`: parse the fifteen
character timestamp, validating the calendar ranges; `none` models the
`ValueError` the source raises on an invalid date. -/
def parseTimestamp (ts : List Char) : Option DateTime :=
  match ts with
  | [y1, y2, y3, y4, s1, a1, a2, s2, b1, b2, s3, c1, c2, e1, e2] =>
      if (isDigit y1 && isDigit y2 && isDigit y3 && isDigit y4
          && (s1 == '-') && isDigit a1 && isDigit a2 && (s2 == '-')
          && isDigit b1 && isDigit b2 && (s3 == '_')
          && isDigit c1 && isDigit c2 && isDigit e1 && isDigit e2) = true
      then
        let year := ((digitVal y1 * 10 + digitVal y2) * 10
          + digitVal y3) * 10 + digitVal y4
        let month := digitVal a1 * 10 + digitVal a2
        let day := digitVal b1 * 10 + digitVal b2
        let hour := digitVal c1 * 10 + digitVal c2
        let minute := digitVal e1 * 10 + digitVal e2
        if 1 ≤ year ∧ 1 ≤ month ∧ month ≤ 12 ∧ 1 ≤ day
            ∧ day ≤ daysInMonth year month ∧ hour ≤ 23 ∧ minute ≤ 59 then
          some ⟨year, month, day, hour, minute, 0, 0⟩
        else none
      else none
  | _ => none

/-- An immediate child of the backup directory: its name, whether it is
a directory, and the names of the regular files directly inside it. -/
structure DirEntry where
  name : List Char
  isdir : Bool
  files : List (List Char)
deriving DecidableEq, Repr

/-- The expected catalog file name for a timestamp:
`<timestamp>-catalog.01.dar`. -/
def catalogName (ts : List Char) : List Char :=
  ts ++ '-' :: ['c', 'a', 't', 'a', 'l', 'o', 'g',
    '.', '0', '1', '.', 'd', 'a', 'r']

/-- One iteration of the scan loop of `find_existing_backups`:
`some none` means the child is silently ignored (not a directory, name
does not match, or catalog missing); `some (some b)` means a valid
backup is recorded; `none` means the loop dies with a `ValueError`
because a name matching the regex carries an unparsable date. -/
def scanEntry (e : DirEntry) : Option (Option BackupPropsDT) :=
  if e.isdir = false then some none
  else
    match backupRegexMatch e.name with
    | none => some none
    | some (ts, suf) =>
        match parseTimestamp ts with
        | none => none
        | some d =>
            match suffixLevel suf with
            | none => none
            | some lvl =>
                if catalogName ts ∈ e.files then some (some ⟨some d, lvl⟩)
                else some none

/-- The scan loop over all children, in listing order. -/
def findExistingScanAux : List DirEntry → Option (List BackupPropsDT)
  | [] => some []
  | e :: rest =>
      match scanEntry e with
      | none => none
      | some none => findExistingScanAux rest
      | some (some b) => (findExistingScanAux rest).map (fun l => b :: l)

/-- `BackupDatabase.find_existing_backups` (no date bound) over an
abstract directory listing: collect the valid backups and sort them;
`none` models the `ValueError` escaping the call. -/
def findExistingScan (entries : List DirEntry) :
    Option (List BackupPropsDT) :=
  (findExistingScanAux entries).map sortDT

/-- The membership condition of claim C7 for a child of the backup
directory: it is a directory, its name matches the backup regex, and it
contains the catalog file derived from the matched timestamp. -/
def claimValidDirB (e : DirEntry) : Bool :=
  e.isdir &&
    (match backupRegexMatch e.name with
     | some (ts, _) => decide (catalogName ts ∈ e.files)
     | none => false)

/-- Does the timestamp of a matching name parse?  (True for names the
regex rejects.)  This is the side condition under which the scan does
not raise. -/
def entryParsesB (e : DirEntry) : Bool :=
  match backupRegexMatch e.name with
  | some (ts, _) => (parseTimestamp ts).isSome
  | none => true

theorem regexMatch_suffixLevel (name ts suf : List Char)
    (h : backupRegexMatch name = some (ts, suf)) :
    (suffixLevel suf).isSome = true := by
  unfold backupRegexMatch at h
  split at h
  · split at h
    · rename_i hcond
      simp only [Bool.and_eq_true] at hcond
      obtain ⟨hrest, hsuf⟩ := hcond
      cases h
      exact hsuf
    · exact absurd h (by simp)
  · exact absurd h (by simp)

theorem scanEntry_isSome (e : DirEntry) (hp : entryParsesB e = true) :
    ∃ v, scanEntry e = some v := by
  unfold scanEntry
  by_cases hdir : e.isdir = false
  · rw [if_pos hdir]
    exact ⟨none, rfl⟩
  · rw [if_neg hdir]
    rcases hm : backupRegexMatch e.name with _ | ⟨ts, suf⟩
    · exact ⟨none, rfl⟩
    · unfold entryParsesB at hp
      rw [hm] at hp
      dsimp only at hp ⊢
      obtain ⟨d, hd⟩ := Option.isSome_iff_exists.mp hp
      rw [hd]
      dsimp only
      obtain ⟨lvl, hlvl⟩ := Option.isSome_iff_exists.mp
        (regexMatch_suffixLevel e.name ts suf hm)
      rw [hlvl]
      dsimp only
      by_cases hc : catalogName ts ∈ e.files
      · rw [if_pos hc]
        exact ⟨some ⟨some d, lvl⟩, rfl⟩
      · rw [if_neg hc]
        exact ⟨none, rfl⟩

theorem scanEntry_accepts_iff (e : DirEntry)
    (hp : entryParsesB e = true) :
    (∃ b, scanEntry e = some (some b)) ↔ claimValidDirB e = true := by
  unfold scanEntry claimValidDirB
  by_cases hdir : e.isdir = false
  · rw [if_pos hdir, hdir]
    simp
  · have hdir' : e.isdir = true := by
      revert hdir
      cases e.isdir <;> simp
    rw [if_neg hdir, hdir']
    rcases hm : backupRegexMatch e.name with _ | ⟨ts, suf⟩
    · simp

    · unfold entryParsesB at hp
      rw [hm] at hp
      dsimp only at hp ⊢
      obtain ⟨d, hd⟩ := Option.isSome_iff_exists.mp hp
      rw [hd]
      dsimp only
      obtain ⟨lvl, hlvl⟩ := Option.isSome_iff_exists.mp
        (regexMatch_suffixLevel e.name ts suf hm)
      rw [hlvl]
      dsimp only
      by_cases hc : catalogName ts ∈ e.files
      · rw [if_pos hc]
        simp [hc]
      · rw [if_neg hc]
        simp [hc]

theorem findExistingScanAux_eq (entries : List DirEntry)
    (hp : ∀ e ∈ entries, entryParsesB e = true) :
    findExistingScanAux entries
      = some (entries.filterMap (fun e => Option.join (scanEntry e))) := by
  induction entries with
  | nil => rfl
  | cons e rest ih =>
      obtain ⟨v, hv⟩ := scanEntry_isSome e (hp e (by simp))
      unfold findExistingScanAux
      rw [hv, List.filterMap_cons, hv]
      rcases v with _ | b
      · simp only [Option.join]
        exact ih (fun u hu => hp u (by simp [hu]))
      · simp only [Option.join]
        rw [ih (fun u hu => hp u (by simp [hu]))]
        rfl

/-- C7 (amended): when every regex-matching child name carries a
parseable timestamp, the scan succeeds, and a child contributes a backup
to the result exactly when it is a directory whose name matches the
regex and which contains the catalog file named after the matched
timestamp; all other children are silently ignored.  (A matching name
with an unparsable timestamp instead makes the whole scan raise, as the
separate counterexample shows.) -/
theorem find_existing_scan_characterization (entries : List DirEntry)
    (hp : ∀ e ∈ entries, entryParsesB e = true) :
    findExistingScan entries
      = some (sortDT (entries.filterMap
          (fun e => Option.join (scanEntry e)))) ∧
    (∀ e ∈ entries,
      (∃ b, scanEntry e = some (some b)) ↔ claimValidDirB e = true) := by
  constructor
  · unfold findExistingScan
    rw [findExistingScanAux_eq entries hp]
    rfl
  · exact fun e he => scanEntry_accepts_iff e (hp e he)

/-- Closed instance of `find_existing_scan_characterization`: a valid
backup directory, a matching directory without catalog and a stray file
are classified as the claim says. -/
theorem find_existing_scan_witness :
    (∀ e ∈ [(⟨['2', '0', '1', '2', '-', '0', '1', '-', '0', '1', '_',
               '2', '0', '0', '0', '-', 'f', 'u', 'l', 'l'], true,
              [catalogName ['2', '0', '1', '2', '-', '0', '1', '-', '0',
                '1', '_', '2', '0', '0', '0']]⟩ : DirEntry),
             ⟨['2', '0', '1', '2', '-', '0', '1', '-', '0', '2', '_',
               '2', '0', '0', '0', '-', 'd', 'i', 'f', 'f'], true, []⟩,
             ⟨['s', 'h', 'o', 'r', 't'], true, []⟩],
        entryParsesB e = true) ∧
    (∀ e ∈ [(⟨['2', '0', '1', '2', '-', '0', '1', '-', '0', '1', '_',
               '2', '0', '0', '0', '-', 'f', 'u', 'l', 'l'], true,
              [catalogName ['2', '0', '1', '2', '-', '0', '1', '-', '0',
                '1', '_', '2', '0', '0', '0']]⟩ : DirEntry),
             ⟨['2', '0', '1', '2', '-', '0', '1', '-', '0', '2', '_',
               '2', '0', '0', '0', '-', 'd', 'i', 'f', 'f'], true, []⟩,
             ⟨['s', 'h', 'o', 'r', 't'], true, []⟩],
      (∃ b, scanEntry e = some (some b)) ↔ claimValidDirB e = true) :=
  ⟨by decide,
    (find_existing_scan_characterization _ (by decide)).2⟩

/-- C7 as stated fails: a directory whose name matches the regex but
whose timestamp is no valid calendar date (month 13) satisfies the
claimed membership condition, yet the scan raises a `ValueError`
instead of returning a list containing it. -/
theorem find_existing_scan_counterexample :
    claimValidDirB ⟨['2', '0', '1', '2', '-', '1', '3', '-', '0', '1',
        '_', '0', '0', '0', '0', '-', 'f', 'u', 'l', 'l'], true,
        [catalogName ['2', '0', '1', '2', '-', '1', '3', '-', '0', '1',
          '_', '0', '0', '0', '0']]⟩ = true ∧
    findExistingScan [⟨['2', '0', '1', '2', '-', '1', '3', '-', '0', '1',
        '_', '0', '0', '0', '0', '-', 'f', 'u', 'l', 'l'], true,
        [catalogName ['2', '0', '1', '2', '-', '1', '3', '-', '0', '1',
          '_', '0', '0', '0', '0']]⟩] = none := by
  decide

/-- Modelled from the spec: `base_name = date_string + "-" + suffix`.
The properties module of this snapshot does not define `base_name`
(only its callers in the runner use it); section 3 of the specification
defines it as the date string, a dash and the suffix. -/
def BackupPropsDT.baseName (b : BackupPropsDT) : List Char :=
  b.dateString ++ '-' :: levelSuffix b.level

/-- The round trip claim C8 describes: match the base name against the
backup regex, re-parse the captured timestamp with the canonical format
and decode the captured suffix. -/
def reparse (b : BackupPropsDT) : Option (DateTime × Nat) :=
  match backupRegexMatch b.baseName with
  | some (ts, suf) =>
      match parseTimestamp ts, suffixLevel suf with
      | some d, some lvl => some (d, lvl)
      | _, _ => none
  | none => none

theorem digitChar_isDigit (k : Nat) : isDigit (digitChar k) = true := by
  rcases k with _ | _ | _ | _ | _ | _ | _ | _ | _ | k
  · decide
  · decide
  · decide
  · decide
  · decide
  · decide
  · decide
  · decide
  · decide
  · exact (by decide : isDigit ('9' : Char) = true)

theorem digitVal_digitChar (k : Nat) (h : k ≤ 9) :
    digitVal (digitChar k) = k := by
  interval_cases k <;> decide

theorem suffixLevel_levelSuffix (lvl : Nat) (h : lvl ≤ 2) :
    suffixLevel (levelSuffix lvl) = some lvl := by
  interval_cases lvl <;> decide

/-- The regex accepts exactly the rendered base name of a dated entry,
capturing the rendered timestamp and the suffix. -/
theorem regexMatch_baseName (d : DateTime) (lvl : Nat) (hlvl : lvl ≤ 2) :
    backupRegexMatch (BackupPropsDT.baseName ⟨some d, lvl⟩)
      = some (fmtDateTime d, levelSuffix lvl) := by
  have hbase : BackupPropsDT.baseName ⟨some d, lvl⟩
      = [digitChar (d.year / 1000), digitChar (d.year / 100 % 10),
         digitChar (d.year / 10 % 10), digitChar (d.year % 10), '-',
         digitChar (d.month / 10), digitChar (d.month % 10), '-',
         digitChar (d.day / 10), digitChar (d.day % 10), '_',
         digitChar (d.hour / 10), digitChar (d.hour % 10),
         digitChar (d.minute / 10), digitChar (d.minute % 10), '-']
        ++ levelSuffix lvl := rfl
  interval_cases lvl <;>
    (rw [hbase]
     norm_num [levelSuffix]
     unfold backupRegexMatch
     dsimp only
     rw [if_pos (by simp [digitChar_isDigit, suffixLevel])]
     simp [fmtDateTime, pad4, pad2, levelSuffix])

/-- Re-parsing the rendered timestamp of a valid datetime recovers its
first five fields. -/
theorem parse_fmtDateTime (d : DateTime) (hv : DateTime.ValidB d = true) :
    parseTimestamp (fmtDateTime d)
      = some ⟨d.year, d.month, d.day, d.hour, d.minute, 0, 0⟩ := by
  unfold DateTime.ValidB at hv
  simp only [Bool.and_eq_true, decide_eq_true_eq] at hv
  obtain ⟨⟨⟨⟨⟨⟨⟨⟨⟨hy1, hy2⟩, hm1⟩, hm2⟩, hd1⟩, hd2⟩, hh⟩, hmin⟩, hs⟩, hu⟩ := hv
  unfold fmtDateTime pad4 pad2
  simp only [List.cons_append, List.nil_append]
  unfold parseTimestamp
  dsimp only
  rw [if_pos (by simp [digitChar_isDigit])]
  have ey : ((digitVal (digitChar (d.year / 1000)) * 10
      + digitVal (digitChar (d.year / 100 % 10))) * 10
      + digitVal (digitChar (d.year / 10 % 10))) * 10
      + digitVal (digitChar (d.year % 10)) = d.year := by
    rw [digitVal_digitChar _ (by omega), digitVal_digitChar _ (by omega),
      digitVal_digitChar _ (by omega), digitVal_digitChar _ (by omega)]
    omega
  have em : digitVal (digitChar (d.month / 10)) * 10
      + digitVal (digitChar (d.month % 10)) = d.month := by
    rw [digitVal_digitChar _ (by omega), digitVal_digitChar _ (by omega)]
    omega
  have ed : digitVal (digitChar (d.day / 10)) * 10
      + digitVal (digitChar (d.day % 10)) = d.day := by
    have hdm : d.day ≤ 31 := by
      have : daysInMonth d.year d.month ≤ 31 := by
        unfold daysInMonth
        split
        · split <;> omega
        · split <;> omega
      omega
    rw [digitVal_digitChar _ (by omega), digitVal_digitChar _ (by omega)]
    omega
  have eh : digitVal (digitChar (d.hour / 10)) * 10
      + digitVal (digitChar (d.hour % 10)) = d.hour := by
    rw [digitVal_digitChar _ (by omega), digitVal_digitChar _ (by omega)]
    omega
  have emin : digitVal (digitChar (d.minute / 10)) * 10
      + digitVal (digitChar (d.minute % 10)) = d.minute := by
    rw [digitVal_digitChar _ (by omega), digitVal_digitChar _ (by omega)]
    omega
  rw [ey, em, ed, eh, emin]
  rw [if_pos (by omega)]

/-- C8 (amended): for a dated entry whose datetime is valid, has a four
digit year and lies on a whole minute (zero seconds and microseconds),
the round trip through `base_name`, the regex and `strptime` reproduces
the original date and level exactly. -/
theorem reparse_roundtrip (d : DateTime) (lvl : Nat) (hlvl : lvl ≤ 2)
    (hv : DateTime.ValidB d = true) (hy : 1000 ≤ d.year)
    (hsec : d.second = 0) (husec : d.usec = 0) :
    reparse ⟨some d, lvl⟩ = some (d, lvl) := by
  unfold reparse
  rw [regexMatch_baseName d lvl hlvl]
  dsimp only
  rw [parse_fmtDateTime d hv, suffixLevel_levelSuffix lvl hlvl]
  dsimp only
  rcases d with ⟨y, mo, da, h, mi, s, u⟩
  dsimp only at hsec husec ⊢
  rw [hsec, husec]

/-- Closed instance of `reparse_roundtrip`. -/
theorem reparse_roundtrip_witness :
    (1 : Nat) ≤ 2
    ∧ DateTime.ValidB ⟨2012, 1, 1, 20, 0, 0, 0⟩ = true
    ∧ 1000 ≤ (2012 : Nat)
    ∧ reparse ⟨some ⟨2012, 1, 1, 20, 0, 0, 0⟩, 1⟩
        = some (⟨2012, 1, 1, 20, 0, 0, 0⟩, 1) :=
  ⟨by decide, by decide, by decide,
    reparse_roundtrip ⟨2012, 1, 1, 20, 0, 0, 0⟩ 1 (by decide) (by decide)
      (by decide) rfl rfl⟩

/-- C8 as stated fails: a `BackupProperties` whose date carries nonzero
seconds renders with the seconds dropped, so the round trip returns the
minute-truncated datetime, not the original one. -/
theorem reparse_counterexample :
    reparse ⟨some ⟨2012, 1, 1, 20, 0, 30, 0⟩, 0⟩
        = some (⟨2012, 1, 1, 20, 0, 0, 0⟩, 0)
    ∧ (⟨2012, 1, 1, 20, 0, 0, 0⟩ : DateTime)
        ≠ ⟨2012, 1, 1, 20, 0, 30, 0⟩ := by
  decide

theorem digitChar_val_lt_N (k : Nat) :
    (digitChar k).val < ('N' : Char).val := by
  rcases k with _ | _ | _ | _ | _ | _ | _ | _ | _ | k
  · decide
  · decide
  · decide
  · decide
  · decide
  · decide
  · decide
  · decide
  · decide
  · exact (by decide : ('9' : Char).val < ('N' : Char).val)

theorem not_N_lt_digitChar (k : Nat) :
    ¬ ('N' : Char).val < (digitChar k).val := by
  rcases k with _ | _ | _ | _ | _ | _ | _ | _ | _ | k
  · decide
  · decide
  · decide
  · decide
  · decide
  · decide
  · decide
  · decide
  · decide
  · exact (by decide : ¬ ('N' : Char).val < ('9' : Char).val)

/-- C9 (amended): an invalid `BackupProperties` (date `None`) sorts
AFTER every dated one, not before: the string rendered for the missing
date starts with a letter whereas every date rendering starts with a
digit, and letters compare greater. -/
theorem invalid_sorts_after (p q : BackupPropsDT) (d : DateTime)
    (hp : p.date = none) (hq : q.date = some d) :
    propDTlt q p = true ∧ propDTlt p q = false := by
  have hqs : q.dateString = digitChar (d.year / 1000)
      :: (digitChar (d.year / 100 % 10) :: digitChar (d.year / 10 % 10)
        :: digitChar (d.year % 10) :: '-' :: (pad2 d.month ++ '-'
        :: (pad2 d.day ++ '_' :: (pad2 d.hour ++ pad2 d.minute)))) := by
    unfold BackupPropsDT.dateString
    rw [hq]
    rfl
  have hps : p.dateString = 'N' :: ['o', 'n', 'e'] := by
    unfold BackupPropsDT.dateString
    rw [hp]
    rfl
  have hlt := digitChar_val_lt_N (d.year / 1000)
  have hne : q.dateString ≠ p.dateString := by
    rw [hqs, hps]
    intro he
    injection he with h1 _
    rw [h1] at hlt
    exact absurd hlt (by decide)
  constructor
  · unfold propDTlt
    rw [if_neg hne, hqs, hps]
    unfold strLt
    rw [if_pos hlt]
  · unfold propDTlt
    rw [if_neg (fun he => hne he.symm), hps, hqs]
    unfold strLt
    rw [if_neg (not_N_lt_digitChar (d.year / 1000)), if_pos hlt]

/-- Closed instance of `invalid_sorts_after`. -/
theorem invalid_sorts_after_witness :
    propDTlt ⟨some ⟨2012, 1, 1, 20, 0, 0, 0⟩, 0⟩ ⟨none, 1⟩ = true ∧
    propDTlt ⟨none, 1⟩ ⟨some ⟨2012, 1, 1, 20, 0, 0, 0⟩, 0⟩ = false :=
  invalid_sorts_after ⟨none, 1⟩ ⟨some ⟨2012, 1, 1, 20, 0, 0, 0⟩, 0⟩
    ⟨2012, 1, 1, 20, 0, 0, 0⟩ rfl rfl

/-- C9 as stated fails: the string rendered for the missing date starts
with an uppercase letter, whose code point exceeds every digit, so an
invalid entry compares greater than a dated one, not smaller. -/
theorem invalid_sorts_counterexample :
    propDTlt ⟨none, 0⟩ ⟨some ⟨2012, 1, 1, 20, 0, 0, 0⟩, 0⟩ = false ∧
    propDTlt ⟨some ⟨2012, 1, 1, 20, 0, 0, 0⟩, 0⟩ ⟨none, 0⟩ = true := by
  decide

/-!
Schedule well-formedness (claim C1).
-/

theorem fillLoop_of_step (I fin t : Int) (h : 0 < I ∧ t < fin) :
    fillLoop I fin t = t :: fillLoop I fin (t + I) := by
  conv_lhs => rw [fillLoop]
  rw [dif_pos h]

theorem fillLoop_of_stop (I fin t : Int) (h : ¬ (0 < I ∧ t < fin)) :
    fillLoop I fin t = [] := by
  rw [fillLoop, dif_neg h]

theorem fillLoop_mem (I fin : Int) (hI : 0 < I) :
    ∀ t, ∀ x ∈ fillLoop I fin t, t ≤ x ∧ x < fin := by
  intro t
  induction t using fillLoop.induct I fin with
  | case1 u hu ih =>
      intro x hx
      rw [fillLoop_of_step I fin u hu] at hx
      rcases List.mem_cons.mp hx with h | h
      · subst h
        exact ⟨le_refl _, hu.2⟩
      · have := ih x h
        constructor
        · omega
        · exact this.2
  | case2 u hu =>
      intro x hx
      rw [fillLoop_of_stop I fin u hu] at hx
      simp at hx

theorem fillLoop_pairwise (I fin : Int) (hI : 0 < I) :
    ∀ t, (fillLoop I fin t).Pairwise (· < ·) := by
  intro t
  induction t using fillLoop.induct I fin with
  | case1 u hu ih =>
      rw [fillLoop_of_step I fin u hu]
      refine List.Pairwise.cons ?_ ih
      intro x hx
      have := (fillLoop_mem I fin hI (u + I) x hx).1
      omega
  | case2 u hu =>
      rw [fillLoop_of_stop I fin u hu]
      exact List.Pairwise.nil

theorem fillLoop_dvd (I fin m : Int) (hmI : m ∣ I) :
    ∀ t, m ∣ t → ∀ x ∈ fillLoop I fin t, m ∣ x := by
  intro t
  induction t using fillLoop.induct I fin with
  | case1 u hu ih =>
      intro hmu x hx
      rw [fillLoop_of_step I fin u hu] at hx
      rcases List.mem_cons.mp hx with h | h
      · subst h
        exact hmu
      · exact ih (Dvd.dvd.add hmu hmI) x h
  | case2 u hu =>
      intro hmu x hx
      rw [fillLoop_of_stop I fin u hu] at hx
      simp at hx

/-- The strict date order on schedule entries. -/
def dateLt (a b : BackupProperties) : Prop := dateD a < dateD b

instance (a b : BackupProperties) : Decidable (dateLt a b) := by
  unfold dateLt
  infer_instance

/-- Entries whose distinct minute keys force the sort order to be the
date order: a date carried as `some` and divisible by one minute. -/
def AlignedEntry (b : BackupProperties) : Prop :=
  ∃ t, b.date = some t ∧ microsPerMinute ∣ t

/-- On minute-aligned dates the minute key is faithful. -/
theorem dateKey_lt_of_aligned (x y : Int) (hx : microsPerMinute ∣ x)
    (hy : microsPerMinute ∣ y) (hxy : x < y) : dateKey x < dateKey y := by
  obtain ⟨p, hp⟩ := hx
  obtain ⟨q, hq⟩ := hy
  have hm : (microsPerMinute : Int) ≠ 0 := by norm_num [microsPerMinute]
  subst hp hq
  unfold dateKey
  rw [Int.mul_ediv_cancel_left _ hm, Int.mul_ediv_cancel_left _ hm]
  exact lt_of_mul_lt_mul_left hxy (by norm_num [microsPerMinute])

theorem head_le_of_pairwise (b : BackupProperties)
    (t : List BackupProperties) (hpw : (b :: t).Pairwise dateLt) :
    ∀ y ∈ b :: t, dateD b ≤ dateD y := by
  intro y hy
  rcases List.mem_cons.mp hy with h | h
  · rw [h]
  · exact le_of_lt ((List.pairwise_cons.mp hpw).1 y h)

theorem getLast_ge_head (l : List BackupProperties)
    (hl : l.Pairwise dateLt) :
    ∀ h ∈ l.head?, ∀ z ∈ l.getLast?, dateD h ≤ dateD z := by
  rcases l with _ | ⟨a, t⟩
  · simp
  · intro h hh z hz
    simp only [List.head?_cons, Option.mem_def, Option.some.injEq] at hh
    subst hh
    have hz' : z ∈ a :: t := by
      obtain ⟨ys, hys⟩ := List.getLast?_eq_some_iff.mp hz
      rw [hys]
      simp
    exact head_le_of_pairwise a t hl z hz'

theorem fillPairs_spec (I : Int) (lvl : Nat) (hI : 0 < I)
    (hm : microsPerMinute ∣ I) :
    ∀ l : List BackupProperties,
      l.Pairwise dateLt →
      (∀ b ∈ l, AlignedEntry b) →
      (∀ x ∈ fillPairs I lvl l,
          x.level = lvl ∧ AlignedEntry x
          ∧ (∀ h ∈ l.head?, dateD h < dateD x)
          ∧ (∀ z ∈ l.getLast?, dateD x < dateD z))
      ∧ (fillPairs I lvl l).Pairwise (fun a b => dateD a ≠ dateD b)
      ∧ (∀ x ∈ fillPairs I lvl l, ∀ y ∈ l, dateD x ≠ dateD y) := by
  intro l
  induction l with
  | nil =>
      intro _ _
      refine ⟨?_, ?_, ?_⟩ <;> simp [fillPairs]
  | cons a rest ih =>
      rcases rest with _ | ⟨b, rest⟩
      · intro _ _
        refine ⟨?_, ?_, ?_⟩ <;> simp [fillPairs]
      · intro hpw hal
        have hpw' : (b :: rest).Pairwise dateLt :=
          (List.pairwise_cons.mp hpw).2
        have hab : dateLt a b :=
          (List.pairwise_cons.mp hpw).1 b (by simp)
        have hal' : ∀ y ∈ b :: rest, AlignedEntry y :=
          fun y hy => hal y (by simp [hy])
        obtain ⟨IH1, IH2, IH3⟩ := ih hpw' hal'
        obtain ⟨ta, hta, hmta⟩ := hal a (by simp)
        have hda : dateD a = ta := by rw [dateD, hta]; rfl
        have hmda : microsPerMinute ∣ dateD a := by rw [hda]; exact hmta
        have hGmem : ∀ x ∈ (fillLoop I (dateD b) (dateD a + I)).map
            (fun t => (⟨some t, lvl⟩ : BackupProperties)),
            ∃ t ∈ fillLoop I (dateD b) (dateD a + I),
              x = ⟨some t, lvl⟩ := by
          intro x hx
          obtain ⟨t, ht, hxt⟩ := List.mem_map.mp hx
          exact ⟨t, ht, hxt.symm⟩
        have hGd : ∀ x ∈ (fillLoop I (dateD b) (dateD a + I)).map
            (fun t => (⟨some t, lvl⟩ : BackupProperties)),
            dateD a < dateD x ∧ dateD x < dateD b
              ∧ x.level = lvl ∧ AlignedEntry x := by
          intro x hx
          obtain ⟨t, ht, hxt⟩ := hGmem x hx
          have hb := fillLoop_mem I (dateD b) hI (dateD a + I) t ht
          have hdx : dateD x = t := by rw [hxt]; rfl
          refine ⟨by omega, by omega, by rw [hxt], ?_⟩
          refine ⟨t, by rw [hxt], ?_⟩
          exact fillLoop_dvd I (dateD b) microsPerMinute hm (dateD a + I)
            (Dvd.dvd.add hmda hm) t ht
        have hfp : fillPairs I lvl (a :: b :: rest)
            = (fillLoop I (dateD b) (dateD a + I)).map
                (fun t => (⟨some t, lvl⟩ : BackupProperties))
              ++ fillPairs I lvl (b :: rest) := rfl
        have hlast : (a :: b :: rest).getLast? = (b :: rest).getLast? := by
          simp [List.getLast?_cons_cons]
        have hblast : ∀ z ∈ (b :: rest).getLast?, dateD b ≤ dateD z := by
          intro z hz
          exact getLast_ge_head (b :: rest) hpw' b (by simp) z hz
        refine ⟨?_, ?_, ?_⟩
        · intro x hx
          rw [hfp] at hx
          rcases List.mem_append.mp hx with hxg | hxf
          · obtain ⟨h1, h2, h3, h4⟩ := hGd x hxg
            refine ⟨h3, h4, ?_, ?_⟩
            · intro h hh
              simp only [List.head?_cons, Option.mem_def,
                Option.some.injEq] at hh
              subst hh
              exact h1
            · intro z hz
              rw [hlast] at hz
              have := hblast z hz
              omega
          · obtain ⟨h1, h2, h3, h4⟩ := IH1 x hxf
            refine ⟨h1, h2, ?_, ?_⟩
            · intro h hh
              simp only [List.head?_cons, Option.mem_def,
                Option.some.injEq] at hh
              subst hh
              have hbx : dateD b < dateD x := by
                have := h3 b (by simp)
                exact this
              unfold dateLt at hab
              omega
            · intro z hz
              rw [hlast] at hz
              exact h4 z hz
        · rw [hfp]
          rw [List.pairwise_append]
          refine ⟨?_, IH2, ?_⟩
          · have hpl := fillLoop_pairwise I (dateD b) hI (dateD a + I)
            exact List.Pairwise.map
              (fun t => (⟨some t, lvl⟩ : BackupProperties))
              (fun x y hxy => by
                show dateD ⟨some x, lvl⟩ ≠ dateD ⟨some y, lvl⟩
                show x ≠ y
                omega) hpl
          · intro x hxg y hyf
            obtain ⟨_, h2, _, _⟩ := hGd x hxg
            obtain ⟨_, _, h3, _⟩ := IH1 y hyf
            have hby : dateD b < dateD y := h3 b (by simp)
            omega
        · intro x hx y hy
          rw [hfp] at hx
          rcases List.mem_append.mp hx with hxg | hxf
          · obtain ⟨h1, h2, _, _⟩ := hGd x hxg
            rcases List.mem_cons.mp hy with h | h
            · subst h
              omega
            · have := head_le_of_pairwise b rest hpw' y h
              omega
          · obtain ⟨_, _, h3, _⟩ := IH1 x hxf
            have hbx : dateD b < dateD x := h3 b (by simp)
            rcases List.mem_cons.mp hy with h | h
            · subst h
              unfold dateLt at hab
              omega
            · exact IH3 x hxf y h

/-- For aligned dated entries, the sort order together with distinct
dates forces strictly increasing dates. -/
theorem dateLt_of_sorted_pair (a b : BackupProperties)
    (ha : AlignedEntry a) (hb : AlignedEntry b)
    (hle : propLe a b) (hne : dateD a ≠ dateD b) : dateLt a b := by
  obtain ⟨x, hax, hmx⟩ := ha
  obtain ⟨y, hby, hmy⟩ := hb
  unfold propLe at hle
  unfold dateLt
  have hdx : dateD a = x := by rw [dateD, hax]; rfl
  have hdy : dateD b = y := by rw [dateD, hby]; rfl
  rw [hdx, hdy]
  rw [hdx, hdy] at hne
  by_contra hcon
  have hyx : y < x := by omega
  have hkey := dateKey_lt_of_aligned y x hmy hmx hyx
  have : propLtB b a = true := by
    rw [propLtB_eq_true_iff, hby, hax]
    exact Or.inl hkey
  rw [this] at hle
  simp at hle

theorem pairwise_dateLt_of_sorted (l : List BackupProperties)
    (hs : l.Pairwise propLe)
    (hne : l.Pairwise (fun a b => dateD a ≠ dateD b))
    (hal : ∀ b ∈ l, AlignedEntry b) :
    l.Pairwise dateLt := by
  have hand := hs.and hne
  refine List.Pairwise.imp_of_mem ?_ hand
  intro a b ha hb hab
  exact dateLt_of_sorted_pair a b (hal a ha) (hal b hb) hab.1 hab.2

theorem head_eq_of_min (l : List BackupProperties) (x : BackupProperties)
    (hl : l.Pairwise dateLt) (hx : x ∈ l)
    (hmin : ∀ y ∈ l, y = x ∨ dateD x < dateD y) :
    l.head? = some x := by
  rcases l with _ | ⟨a, t⟩
  · simp at hx
  · simp only [List.head?_cons, Option.some.injEq]
    rcases hmin a (by simp) with h | h
    · exact h
    · exfalso
      rcases List.mem_cons.mp hx with hxa | hxt
      · subst hxa
        omega
      · have hax := (List.pairwise_cons.mp hl).1 x hxt
        unfold dateLt at hax
        omega

theorem mem_of_getLastBackup (l : List BackupProperties)
    (z : BackupProperties) (hz : l.getLast? = some z) : z ∈ l := by
  obtain ⟨ys, h⟩ := List.getLast?_eq_some_iff.mp hz
  rw [h]
  simp

theorem getLast_eq_of_max (l : List BackupProperties)
    (x : BackupProperties) (hl : l.Pairwise dateLt) (hx : x ∈ l)
    (hmax : ∀ y ∈ l, y = x ∨ dateD y < dateD x) :
    l.getLast? = some x := by
  induction l with
  | nil => simp at hx
  | cons a t ih =>
      rcases t with _ | ⟨b, t'⟩
      · simp at hx ⊢
        exact hx.symm
      · rw [List.getLast?_cons_cons]
        have hpw' : (b :: t').Pairwise dateLt :=
          (List.pairwise_cons.mp hl).2
        have hxbt : x ∈ b :: t' := by
          rcases List.mem_cons.mp hx with hxa | hxt
          · exfalso
            subst hxa
            have hab := (List.pairwise_cons.mp hl).1 b (by simp)
            unfold dateLt at hab
            rcases hmax b (by simp) with h | h
            · subst h
              omega
            · omega
          · exact hxt
        exact ih hpw' hxbt (fun y hy => hmax y (by simp [hy]))

theorem lt_getLast_of_pairwise (l : List BackupProperties)
    (hl : l.Pairwise dateLt) (z : BackupProperties)
    (hz : l.getLast? = some z) :
    ∀ y ∈ l, y = z ∨ dateD y < dateD z := by
  induction l with
  | nil => simp
  | cons a t ih =>
      rcases t with _ | ⟨b, t'⟩
      · intro y hy
        simp at hy hz
        subst hy
        exact Or.inl hz
      · rw [List.getLast?_cons_cons] at hz
        have hpw' : (b :: t').Pairwise dateLt :=
          (List.pairwise_cons.mp hl).2
        intro y hy
        rcases List.mem_cons.mp hy with hya | hyt
        · subst hya
          have hzmem := mem_of_getLastBackup _ z hz
          have := (List.pairwise_cons.mp hl).1 z hzmem
          unfold dateLt at this
          exact Or.inr this
        · exact ih hpw' hz y hyt

/-- The invariant the two fill passes preserve: strictly increasing
aligned dates, with the previous full backup first and the upcoming one
last. -/
def GoodSchedule (F U : Int) (l : List BackupProperties) : Prop :=
  l.Pairwise dateLt
  ∧ (∀ b ∈ l, AlignedEntry b)
  ∧ l.head? = some ⟨some F, 0⟩
  ∧ l.getLast? = some ⟨some U, 0⟩

theorem fillSchedule_good (s : Settings) (lvl : Nat) (F U : Int)
    (l : List BackupProperties)
    (hI : 0 < (if lvl = 1 then s.intervalDiff else s.intervalIncr))
    (hm : microsPerMinute ∣
      (if lvl = 1 then s.intervalDiff else s.intervalIncr))
    (hg : GoodSchedule F U l) :
    GoodSchedule F U (fillSchedule s l lvl) := by
  obtain ⟨hpw, hal, hhead, hlast⟩ := hg
  obtain ⟨S1, S2, S3⟩ := fillPairs_spec
    (if lvl = 1 then s.intervalDiff else s.intervalIncr) lvl hI hm
    l hpw hal
  have hout : fillSchedule s l lvl = pySorted
      (l ++ fillPairs (if lvl = 1 then s.intervalDiff else s.intervalIncr)
        lvl l) := rfl
  set fills := fillPairs
    (if lvl = 1 then s.intervalDiff else s.intervalIncr) lvl l with hfills
  have hperm : List.Perm (fillSchedule s l lvl) (l ++ fills) := by
    rw [hout]
    exact pySorted_perm _
  have hsorted : (fillSchedule s l lvl).Pairwise propLe := by
    rw [hout]
    exact pySorted_sorted _
  have hmemiff : ∀ b, b ∈ fillSchedule s l lvl ↔ b ∈ l ++ fills :=
    fun b => hperm.mem_iff
  have halout : ∀ b ∈ fillSchedule s l lvl, AlignedEntry b := by
    intro b hb
    rcases List.mem_append.mp ((hmemiff b).mp hb) with h | h
    · exact hal b h
    · exact (S1 b h).2.1
  have hFe : l.head? = some ⟨some F, 0⟩ := hhead
  have hlcons : ∃ t, l = ⟨some F, 0⟩ :: t := by
    rcases l with _ | ⟨a, t⟩
    · simp at hFe
    · simp only [List.head?_cons, Option.some.injEq] at hFe
      exact ⟨t, by rw [hFe]⟩
  obtain ⟨ltail, hlcons⟩ := hlcons
  have hnecomb : (l ++ fills).Pairwise (fun a b => dateD a ≠ dateD b) := by
    rw [List.pairwise_append]
    refine ⟨hpw.imp (fun h => ?_), S2, ?_⟩
    · unfold dateLt at h
      omega
    · intro a ha b hb
      exact fun he => (S3 b hb a ha) he.symm
  have hneout : (fillSchedule s l lvl).Pairwise
      (fun a b => dateD a ≠ dateD b) := by
    refine (List.Perm.pairwise_iff ?_ hperm).mpr hnecomb
    intro a b h
    omega
  have hpwout : (fillSchedule s l lvl).Pairwise dateLt :=
    pairwise_dateLt_of_sorted _ hsorted hneout halout
  refine ⟨hpwout, halout, ?_, ?_⟩
  · refine head_eq_of_min _ _ hpwout ?_ ?_
    · rw [hmemiff]
      rw [hlcons]
      simp
    · intro y hy
      rcases List.mem_append.mp ((hmemiff y).mp hy) with h | h
      · rw [hlcons] at h
        rcases List.mem_cons.mp h with h1 | h1
        · exact Or.inl h1
        · refine Or.inr ?_
          rw [hlcons] at hpw
          exact (List.pairwise_cons.mp hpw).1 y h1
      · exact Or.inr ((S1 y h).2.2.1 _ (by rw [hFe]; rfl))
  · refine getLast_eq_of_max _ _ hpwout ?_ ?_
    · rw [hmemiff]
      exact List.mem_append.mpr (Or.inl (mem_of_getLastBackup l _ hlast))
    · intro y hy
      rcases List.mem_append.mp ((hmemiff y).mp hy) with h | h
      · exact lt_getLast_of_pairwise l hpw _ hlast y h
      · exact Or.inr ((S1 y h).2.2.2 _ (by rw [hlast]; rfl))

/-- Minute alignment of the configuration: the start time always is
minute-aligned because it is parsed with the canonical format; the
intervals are when the configured day counts are whole multiples of a
minute. -/
def AlignedSettings (s : Settings) : Prop :=
  microsPerMinute ∣ s.startTime ∧ microsPerMinute ∣ s.intervalFull
    ∧ microsPerMinute ∣ s.intervalDiff ∧ microsPerMinute ∣ s.intervalIncr

/-- The well-formedness claim C1 states about the calculated schedule:
at least two entries, a full backup dated not after `now` first, a full
backup dated after `now` last, strictly increasing dates, and no diff or
incr entry sharing its date with a (different) full or diff entry. -/
def ScheduleWellFormed (l : List BackupProperties) (now : Int) : Prop :=
  2 ≤ l.length
  ∧ (∃ b, l.head? = some b ∧ b.level = 0 ∧ b.date.isSome = true
      ∧ dateD b ≤ now)
  ∧ (∃ b, l.getLast? = some b ∧ b.level = 0 ∧ b.date.isSome = true
      ∧ now < dateD b)
  ∧ l.Pairwise dateLt
  ∧ (∀ a ∈ l, ∀ b ∈ l, (a.level = 1 ∨ a.level = 2) →
      (b.level = 0 ∨ b.level = 1) → a ≠ b → dateD a ≠ dateD b)

/-- Core schedule lemma: for valid, minute-aligned settings, once `now`
reaches the start time the calculated schedule satisfies the fill
invariant for the window ending at the upcoming full backup. -/
theorem schedule_goodSchedule (s : Settings) (hs : s.Valid)
    (ha : AlignedSettings s) (now : Int) (hnow : s.startTime ≤ now) :
    GoodSchedule (advancePast s.intervalFull now s.startTime
        - s.intervalFull)
      (advancePast s.intervalFull now s.startTime)
      (calculateBackupSchedule s now) := by
  unfold Settings.Valid at hs
  obtain ⟨hIi, hIid, hIdf⟩ := hs
  have hIf : 0 < s.intervalFull := by omega
  have hId : 0 < s.intervalDiff := by omega
  obtain ⟨haS, haF, haD, haI⟩ := ha
  set U := advancePast s.intervalFull now s.startTime with hUdef
  have hUgt : now < U := advancePast_gt _ _ _ hIf
  have hUsub : U - s.intervalFull ≤ now := advancePast_sub_le _ _ _ hIf hnow
  obtain ⟨k, hk⟩ := advancePast_exists_steps s.intervalFull now s.startTime
  rw [← hUdef] at hk
  have hk1 : 1 ≤ k := by
    by_contra h
    have hk0 : k = 0 := by omega
    rw [hk0] at hk
    simp at hk
    omega
  have hFstart : s.startTime ≤ U - s.intervalFull := by
    rw [hk]
    have h1 : (1 : Int) ≤ (k : Int) := by exact_mod_cast hk1
    nlinarith
  have hsched : calculateBackupSchedule s now
      = fillSchedule s (fillSchedule s
          [⟨some (U - s.intervalFull), 0⟩, ⟨some U, 0⟩] 1) 2 := by
    unfold calculateBackupSchedule
    dsimp only
    rw [← hUdef, if_pos hFstart, if_pos (by simp)]
  have halU : microsPerMinute ∣ U := by
    rw [hk]
    exact dvd_add haS (Dvd.dvd.mul_left haF _)
  have halF : microsPerMinute ∣ U - s.intervalFull :=
    dvd_sub halU haF
  have hbase : GoodSchedule (U - s.intervalFull) U
      [⟨some (U - s.intervalFull), 0⟩, ⟨some U, 0⟩] := by
    refine ⟨?_, ?_, rfl, rfl⟩
    · refine List.Pairwise.cons ?_ (List.pairwise_singleton _ _)
      intro y hy
      simp at hy
      subst hy
      show dateD _ < dateD _
      show U - s.intervalFull < U
      omega
    · intro b hb
      rcases List.mem_cons.mp hb with h | h
      · exact ⟨U - s.intervalFull, by rw [h], halF⟩
      · simp at h
        exact ⟨U, by rw [h], halU⟩
  have hgood1 := fillSchedule_good s 1 _ _ _
    (by norm_num; exact hId) (by norm_num; exact haD) hbase
  have hgood2 := fillSchedule_good s 2 _ _ _
    (by norm_num; exact hIi) (by norm_num; exact haI) hgood1
  rw [hsched]
  exact hgood2

/-- C1 (amended): for valid, minute-aligned settings and any
`now ≥ start_time`, the calculated schedule is well formed. -/
theorem calculate_schedule_wellformed (s : Settings) (hs : s.Valid)
    (ha : AlignedSettings s) (now : Int) (hnow : s.startTime ≤ now) :
    ScheduleWellFormed (calculateBackupSchedule s now) now := by
  have hIf : 0 < s.intervalFull := by
    obtain ⟨h1, h2, h3⟩ := hs
    omega
  set U := advancePast s.intervalFull now s.startTime with hUdef
  have hUgt : now < U := advancePast_gt _ _ _ hIf
  have hUsub : U - s.intervalFull ≤ now := advancePast_sub_le _ _ _ hIf hnow
  obtain ⟨hpw, hal, hhead, hlast⟩ := schedule_goodSchedule s hs ha now hnow
  rw [← hUdef] at hhead hlast
  have hFne : (⟨some (U - s.intervalFull), 0⟩ : BackupProperties)
      ≠ ⟨some U, 0⟩ := by
    intro h
    injection h with h1 _
    injection h1 with h2
    omega
  refine ⟨?_, ?_, ?_, hpw, ?_⟩
  · rcases hl : calculateBackupSchedule s now with _ | ⟨x, _ | ⟨y, t⟩⟩
    · rw [hl] at hhead
      simp at hhead
    · rw [hl] at hhead hlast
      simp at hhead hlast
      exact absurd (hhead.symm.trans hlast) hFne
    · simp
  · refine ⟨_, hhead, rfl, rfl, ?_⟩
    show U - s.intervalFull ≤ now
    omega
  · refine ⟨_, hlast, rfl, rfl, ?_⟩
    show now < U
    omega
  · intro a hain b hbin _ _ hne
    have hne' : (calculateBackupSchedule s now).Pairwise
        (fun x y => dateD x ≠ dateD y) := by
      refine hpw.imp ?_
      intro x y h
      unfold dateLt at h
      omega
    exact List.Pairwise.forall (fun x y h => h.symm) hne' hain hbin hne

/-- Witness for C1 (amended): concrete aligned settings (start at epoch,
full every 3 minutes, diff every 2, incr every 1) at `now = start`
satisfy every hypothesis and yield a well-formed schedule. -/
theorem calculate_schedule_wellformed_witness :
    Settings.Valid ⟨0, 180000000, 120000000, 60000000⟩
    ∧ AlignedSettings ⟨0, 180000000, 120000000, 60000000⟩
    ∧ ((⟨0, 180000000, 120000000, 60000000⟩ : Settings).startTime ≤ 0)
    ∧ ScheduleWellFormed
        (calculateBackupSchedule ⟨0, 180000000, 120000000, 60000000⟩ 0) 0 := by
  have hv : Settings.Valid ⟨0, 180000000, 120000000, 60000000⟩ :=
    ⟨by norm_num, by norm_num, by norm_num⟩
  have ha : AlignedSettings ⟨0, 180000000, 120000000, 60000000⟩ :=
    ⟨⟨0, by norm_num [microsPerMinute]⟩, ⟨3, by norm_num [microsPerMinute]⟩,
      ⟨2, by norm_num [microsPerMinute]⟩, ⟨1, by norm_num [microsPerMinute]⟩⟩
  have hn : ((⟨0, 180000000, 120000000, 60000000⟩ : Settings).startTime
      ≤ (0 : Int)) := by norm_num
  exact ⟨hv, ha, hn, calculate_schedule_wellformed _ hv ha 0 hn⟩

/-- Counterexample to C1 as stated: valid settings need not be
minute-aligned, and with sub-minute intervals (full 70 s, diff 50 s,
incr 30 s, start at epoch, `now = start`) the sort key truncates dates
to the minute, so the emitted schedule carries the 50 s diff before the
30 s incr and its dates are not strictly increasing. -/
theorem calculate_schedule_counterexample :
    Settings.Valid ⟨0, 70000000, 50000000, 30000000⟩
    ∧ ((⟨0, 70000000, 50000000, 30000000⟩ : Settings).startTime ≤ 0)
    ∧ calculateBackupSchedule ⟨0, 70000000, 50000000, 30000000⟩ 0
        = [⟨some 0, 0⟩, ⟨some 50000000, 1⟩, ⟨some 30000000, 2⟩,
            ⟨some 70000000, 0⟩]
    ∧ ¬ List.Pairwise dateLt
        (calculateBackupSchedule ⟨0, 70000000, 50000000, 30000000⟩ 0) := by
  have hU : advancePast 70000000 0 0 = 70000000 := by
    rw [advancePast_of_step _ _ _ (by norm_num)]
    norm_num
    rw [advancePast_of_stop _ _ _ (by norm_num)]
  have hf1 : fillLoop 50000000 70000000 50000000 = [50000000] := by
    have h2 : fillLoop 50000000 70000000 100000000 = [] :=
      fillLoop_of_stop _ _ _ (by norm_num)
    rw [fillLoop_of_step _ _ _ (by norm_num)]
    norm_num [h2]
  have hf2 : fillLoop 30000000 50000000 30000000 = [30000000] := by
    have h2 : fillLoop 30000000 50000000 60000000 = [] :=
      fillLoop_of_stop _ _ _ (by norm_num)
    rw [fillLoop_of_step _ _ _ (by norm_num)]
    norm_num [h2]
  have hf3 : fillLoop 30000000 70000000 80000000 = [] :=
    fillLoop_of_stop _ _ _ (by norm_num)
  have hstep1 : fillSchedule ⟨0, 70000000, 50000000, 30000000⟩
      ([⟨some 0, 0⟩, ⟨some 70000000, 0⟩] : List BackupProperties) 1
      = [⟨some 0, 0⟩, ⟨some 50000000, 1⟩, ⟨some 70000000, 0⟩] := by
    unfold fillSchedule
    simp only [fillPairs, dateD]
    norm_num [hf1]
    decide
  have hstep2 : fillSchedule ⟨0, 70000000, 50000000, 30000000⟩
      ([⟨some 0, 0⟩, ⟨some 50000000, 1⟩, ⟨some 70000000, 0⟩]
        : List BackupProperties) 2
      = [⟨some 0, 0⟩, ⟨some 50000000, 1⟩, ⟨some 30000000, 2⟩,
          ⟨some 70000000, 0⟩] := by
    unfold fillSchedule
    simp only [fillPairs, dateD]
    norm_num [hf2, hf3]
    decide
  have hsched : calculateBackupSchedule ⟨0, 70000000, 50000000, 30000000⟩ 0
      = [⟨some 0, 0⟩, ⟨some 50000000, 1⟩, ⟨some 30000000, 2⟩,
          ⟨some 70000000, 0⟩] := by
    unfold calculateBackupSchedule
    dsimp only
    rw [hU]
    norm_num
    rw [hstep1, hstep2]
  refine ⟨⟨by norm_num, by norm_num, by norm_num⟩, by norm_num, hsched, ?_⟩
  rw [hsched]
  decide

/-!
Monotonicity of the needed-backup decision in time (claim C10): window
lemmas for the advance loop, extremal properties of the backwards search
in the schedule, and persistence of a nonnegative overdue count.
-/

/-- The advance loop exit value is the unique start-congruent value of
the half-open window one interval wide above `now`. -/
theorem advancePast_eq_of_window (I now t u : Int) (hI : 0 < I)
    (ht : t ≤ now) (hcong : ∃ k : Nat, u = t + k * I) (hgt : now < u)
    (hle : u - I ≤ now) : advancePast I now t = u := by
  obtain ⟨j, hj⟩ := advancePast_exists_steps I now t
  obtain ⟨k, hk⟩ := hcong
  have hgt1 : now < advancePast I now t := advancePast_gt I now t hI
  have hle1 : advancePast I now t - I ≤ now :=
    advancePast_sub_le I now t hI ht
  have hdvd : I ∣ (advancePast I now t - u) := by
    rw [hj, hk]
    have hr : t + j * I - (t + k * I) = ((j : Int) - k) * I := by ring
    rw [hr]
    exact Dvd.intro_left _ rfl
  have habs : |advancePast I now t - u| < I := by
    rw [abs_lt]
    omega
  have hz := Int.eq_zero_of_abs_lt_dvd hdvd habs
  omega

/-- The advance loop exit value grows with `now`. -/
theorem advancePast_mono (I now₁ now₂ t : Int) (hI : 0 < I)
    (ht : t ≤ now₁) (h12 : now₁ ≤ now₂) :
    advancePast I now₁ t ≤ advancePast I now₂ t := by
  obtain ⟨j, hj⟩ := advancePast_exists_steps I now₁ t
  obtain ⟨k, hk⟩ := advancePast_exists_steps I now₂ t
  have hle1 := advancePast_sub_le I now₁ t hI ht
  have hgt2 := advancePast_gt I now₂ t hI
  by_contra h
  push_neg at h
  have hdvd : I ∣ (advancePast I now₁ t - advancePast I now₂ t) := by
    rw [hj, hk]
    have hr : t + j * I - (t + k * I) = ((j : Int) - k) * I := by ring
    rw [hr]
    exact Dvd.intro_left _ rfl
  obtain ⟨m, hm⟩ := hdvd
  have h0 : 0 < I * m := by omega
  have hmpos : 0 < m := by
    rcases mul_pos_iff.mp h0 with ⟨_, h⟩ | ⟨h, _⟩
    · exact h
    · omega
  have hgap : I ≤ advancePast I now₁ t - advancePast I now₂ t := by
    calc I = I * 1 := by ring
    _ ≤ I * m := by nlinarith
    _ = advancePast I now₁ t - advancePast I now₂ t := hm.symm
  omega

/-- Once `now` passes the exit value, the exit value advances by at
least a whole interval. -/
theorem advancePast_window_advance (I now₁ now₂ t : Int) (hI : 0 < I)
    (hadv : advancePast I now₁ t ≤ now₂) :
    advancePast I now₁ t + I ≤ advancePast I now₂ t := by
  obtain ⟨j, hj⟩ := advancePast_exists_steps I now₁ t
  obtain ⟨k, hk⟩ := advancePast_exists_steps I now₂ t
  have hgt2 := advancePast_gt I now₂ t hI
  have hdvd : I ∣ (advancePast I now₂ t - advancePast I now₁ t) := by
    rw [hj, hk]
    have hr : t + k * I - (t + j * I) = ((k : Int) - j) * I := by ring
    rw [hr]
    exact Dvd.intro_left _ rfl
  obtain ⟨m, hm⟩ := hdvd
  have h0 : 0 < I * m := by omega
  have hmpos : 0 < m := by
    rcases mul_pos_iff.mp h0 with ⟨_, h⟩ | ⟨h, _⟩
    · exact h
    · omega
  have hgap : I ≤ advancePast I now₂ t - advancePast I now₁ t := by
    calc I = I * 1 := by ring
    _ ≤ I * m := by nlinarith
    _ = advancePast I now₂ t - advancePast I now₁ t := hm.symm
  omega

/-- While `now₂` still lies before the exit value computed at `now₁`,
both computations exit at the same value. -/
theorem advancePast_eq_of_still_before (I now₁ now₂ t : Int) (hI : 0 < I)
    (ht : t ≤ now₁) (h12 : now₁ ≤ now₂)
    (hlt : now₂ < advancePast I now₁ t) :
    advancePast I now₂ t = advancePast I now₁ t := by
  have hle := advancePast_sub_le I now₁ t hI ht
  exact advancePast_eq_of_window I now₂ t (advancePast I now₁ t) hI
    (by omega) (advancePast_exists_steps I now₁ t) hlt (by omega)

/-- The schedule depends on `now` only through the upcoming full
backup. -/
theorem calculateBackupSchedule_congr (s : Settings) (now₁ now₂ : Int)
    (h : advancePast s.intervalFull now₁ s.startTime
        = advancePast s.intervalFull now₂ s.startTime) :
    calculateBackupSchedule s now₁ = calculateBackupSchedule s now₂ := by
  unfold calculateBackupSchedule
  dsimp only
  rw [h]

/-- In a pairwise-related list, the first match of a search relates to
every other match. -/
theorem find_max_of_pairwise {α : Type} (R : α → α → Prop) (p : α → Bool) :
    ∀ (l : List α), l.Pairwise R → ∀ b, l.find? p = some b →
      ∀ x ∈ l, p x = true → x = b ∨ R b x := by
  intro l
  induction l with
  | nil =>
      intro _ b hb
      simp at hb
  | cons a t ih =>
      intro hpw b hb x hx hpx
      by_cases hpa : p a = true
      · rw [List.find?_cons_of_pos _ hpa] at hb
        injection hb with hb
        subst hb
        rcases List.mem_cons.mp hx with h | h
        · exact Or.inl h
        · exact Or.inr ((List.pairwise_cons.mp hpw).1 x h)
      · rw [List.find?_cons_of_neg _ (by simpa using hpa)] at hb
        rcases List.mem_cons.mp hx with h | h
        · subst h
          exact absurd hpx hpa
        · exact ih (List.pairwise_cons.mp hpw).2 b hb x h hpx

/-- Weakening the search predicate moves the first match of a
pairwise-related list no further than the relation allows. -/
theorem find_mono_of_pairwise {α : Type} (R : α → α → Prop)
    (q₁ q₂ : α → Bool) :
    ∀ (l : List α), l.Pairwise R →
      (∀ x, q₁ x = true → q₂ x = true) →
      ∀ b, l.find? q₁ = some b →
      ∃ c, l.find? q₂ = some c ∧ (b = c ∨ R c b) := by
  intro l
  induction l with
  | nil =>
      intro _ _ b hb
      simp at hb
  | cons a t ih =>
      intro hpw himp b hb
      by_cases hq2 : q₂ a = true
      · refine ⟨a, by rw [List.find?_cons_of_pos _ hq2], ?_⟩
        have hbmem : b ∈ a :: t := List.mem_of_find?_eq_some hb
        rcases List.mem_cons.mp hbmem with h | h
        · exact Or.inl h
        · exact Or.inr ((List.pairwise_cons.mp hpw).1 b h)
      · have hq1 : ¬ q₁ a = true := fun h => hq2 (himp a h)
        rw [List.find?_cons_of_neg _ (by simpa using hq1)] at hb
        obtain ⟨c, hc, hrel⟩ :=
          ih (List.pairwise_cons.mp hpw).2 himp b hb
        refine ⟨c, ?_, hrel⟩
        rw [List.find?_cons_of_neg _ (by simpa using hq2)]
        exact hc

/-- Once `now` reaches the start time, the backwards schedule search
always finds an entry. -/
theorem currentScheduled_find (s : Settings) (hs : s.Valid)
    (ha : AlignedSettings s) (now : Int) (hnow : s.startTime ≤ now)
    (t : Nat) :
    ∃ b, (calculateBackupSchedule s now).reverse.find?
        (fun b => decide (b.level ≤ t) && decide (dateD b ≤ now)) = some b
      ∧ currentScheduledBackup s now t = b := by
  have hIf : 0 < s.intervalFull := by
    obtain ⟨h1, h2, h3⟩ := hs
    omega
  obtain ⟨hpw, hal, hhead, hlast⟩ := schedule_goodSchedule s hs ha now hnow
  have hUsub := advancePast_sub_le s.intervalFull now s.startTime hIf hnow
  have hFedmem : (⟨some (advancePast s.intervalFull now s.startTime
      - s.intervalFull), 0⟩ : BackupProperties)
      ∈ (calculateBackupSchedule s now).reverse := by
    rw [List.mem_reverse]
    exact List.mem_of_mem_head? (by rw [hhead]; rfl)
  have hex : ∃ b ∈ (calculateBackupSchedule s now).reverse,
      (fun b => decide (b.level ≤ t) && decide (dateD b ≤ now)) b
        = true := by
    refine ⟨_, hFedmem, ?_⟩
    simp [dateD]
    omega
  rcases hfind : (calculateBackupSchedule s now).reverse.find?
      (fun b => decide (b.level ≤ t) && decide (dateD b ≤ now))
      with _ | b
  · exfalso
    have hsome := List.find?_isSome.mpr hex
    rw [hfind] at hsome
    simp at hsome
  · refine ⟨b, hfind, ?_⟩
    unfold currentScheduledBackup
    rw [hfind]

/-- The entry the backwards search returns is a valid schedule entry in
the current window: it is dated between the previous full backup and
`now`, and no accepted schedule entry at or before `now` is newer. -/
theorem currentScheduled_spec (s : Settings) (hs : s.Valid)
    (ha : AlignedSettings s) (now : Int) (hnow : s.startTime ≤ now)
    (t : Nat) :
    (currentScheduledBackup s now t).isValid = true
    ∧ dateD (currentScheduledBackup s now t) ≤ now
    ∧ advancePast s.intervalFull now s.startTime - s.intervalFull
        ≤ dateD (currentScheduledBackup s now t) := by
  have hIf : 0 < s.intervalFull := by
    obtain ⟨h1, h2, h3⟩ := hs
    omega
  obtain ⟨b, hfind, hcur⟩ := currentScheduled_find s hs ha now hnow t
  obtain ⟨hpw, hal, hhead, hlast⟩ := schedule_goodSchedule s hs ha now hnow
  have hUsub := advancePast_sub_le s.intervalFull now s.startTime hIf hnow
  have hbmem : b ∈ calculateBackupSchedule s now :=
    List.mem_reverse.mp (List.mem_of_find?_eq_some hfind)
  have hbpred := List.find?_some hfind
  simp only [Bool.and_eq_true, decide_eq_true_eq] at hbpred
  have hbal := hal b hbmem
  obtain ⟨d, hd, _⟩ := hbal
  have hvalid : b.isValid = true := by
    unfold BackupProperties.isValid
    rw [hd]
    rfl
  have hpwrev : (calculateBackupSchedule s now).reverse.Pairwise
      (fun a b => dateLt b a) := List.pairwise_reverse.mpr
    (hpw.imp (fun h => h))
  have hmax := find_max_of_pairwise (fun a b => dateLt b a)
    (fun b => decide (b.level ≤ t) && decide (dateD b ≤ now))
    (calculateBackupSchedule s now).reverse hpwrev b hfind
  have hFle : advancePast s.intervalFull now s.startTime - s.intervalFull
      ≤ dateD b := by
    have hFq := hmax ⟨some (advancePast s.intervalFull now s.startTime
        - s.intervalFull), 0⟩
      (by rw [List.mem_reverse]
          exact List.mem_of_mem_head? (by rw [hhead]; rfl))
      (by simp [dateD]; omega)
    rcases hFq with h | h
    · rw [← h]
      exact le_of_eq (by rfl)
    · have h' : dateD (⟨some (advancePast s.intervalFull now s.startTime
          - s.intervalFull), 0⟩ : BackupProperties) < dateD b := h
      have he : dateD (⟨some (advancePast s.intervalFull now s.startTime
          - s.intervalFull), 0⟩ : BackupProperties)
          = advancePast s.intervalFull now s.startTime
            - s.intervalFull := rfl
      omega
  rw [hcur]
  exact ⟨hvalid, hbpred.2, hFle⟩

/-- The date of the entry the backwards search returns never moves
backwards as time advances. -/
theorem currentScheduled_mono (s : Settings) (hs : s.Valid)
    (ha : AlignedSettings s) (now₁ now₂ : Int)
    (hnow : s.startTime ≤ now₁) (h12 : now₁ ≤ now₂) (t : Nat) :
    dateD (currentScheduledBackup s now₁ t)
      ≤ dateD (currentScheduledBackup s now₂ t) := by
  have hIf : 0 < s.intervalFull := by
    obtain ⟨h1, h2, h3⟩ := hs
    omega
  have hnow₂ : s.startTime ≤ now₂ := le_trans hnow h12
  by_cases hw : now₂ < advancePast s.intervalFull now₁ s.startTime
  · have hUeq : advancePast s.intervalFull now₂ s.startTime
        = advancePast s.intervalFull now₁ s.startTime :=
      advancePast_eq_of_still_before s.intervalFull now₁ now₂
        s.startTime hIf hnow h12 hw
    have hseq : calculateBackupSchedule s now₂
        = calculateBackupSchedule s now₁ :=
      calculateBackupSchedule_congr s now₂ now₁ (by rw [hUeq])
    obtain ⟨hpw, hal, hhead, hlast⟩ := schedule_goodSchedule s hs ha now₁ hnow
    have hpwrev : (calculateBackupSchedule s now₁).reverse.Pairwise
        (fun a b => dateLt b a) := List.pairwise_reverse.mpr
      (hpw.imp (fun h => h))
    obtain ⟨b₁, hfind₁, hcur₁⟩ := currentScheduled_find s hs ha now₁ hnow t
    have himp : ∀ x : BackupProperties,
        (decide (x.level ≤ t) && decide (dateD x ≤ now₁)) = true →
        (decide (x.level ≤ t) && decide (dateD x ≤ now₂)) = true := by
      intro x hx
      simp only [Bool.and_eq_true, decide_eq_true_eq] at hx ⊢
      omega
    obtain ⟨b₂, hfind₂, hrel⟩ := find_mono_of_pairwise
      (fun a b => dateLt b a)
      (fun b => decide (b.level ≤ t) && decide (dateD b ≤ now₁))
      (fun b => decide (b.level ≤ t) && decide (dateD b ≤ now₂))
      (calculateBackupSchedule s now₁).reverse hpwrev himp b₁ hfind₁
    have hcur₂ : currentScheduledBackup s now₂ t = b₂ := by
      unfold currentScheduledBackup
      rw [hseq, hfind₂]
    rw [hcur₁, hcur₂]
    rcases hrel with h | h
    · rw [h]
    · unfold dateLt at h
      omega
  · push_neg at hw
    have h1 := (currentScheduled_spec s hs ha now₁ hnow t).2.1
    have hgt₁ := advancePast_gt s.intervalFull now₁ s.startTime hIf
    have hadv := advancePast_window_advance s.intervalFull now₁ now₂
      s.startTime hIf hw
    have h2 := (currentScheduled_spec s hs ha now₂ hnow₂ t).2.2
    omega

/-- The escalation loop over the test levels always returns one of the
current scheduled backups of a test level at most the requested one. -/
theorem lastScheduledLoop_range (s : Settings) (now d : Int) (lvl : Nat) :
    ∀ k i, i + k = lvl + 1 → 0 < k →
      ∃ t, t ≤ lvl ∧ lastScheduledLoop s now d lvl (List.range' i k)
        = currentScheduledBackup s now t := by
  intro k
  induction k with
  | zero =>
      intro i _ hk
      exact absurd hk (by norm_num)
  | succ k ih =>
      intro i hik _
      have hr : List.range' i (k + 1) = i :: List.range' (i + 1) k := rfl
      rw [hr]
      unfold lastScheduledLoop
      dsimp only
      by_cases hi : i = lvl
      · rw [if_pos hi]
        exact ⟨i, by omega, rfl⟩
      · rw [if_neg hi]
        by_cases hcond : (currentScheduledBackup s now i).isValid = true
            ∧ d < dateD (currentScheduledBackup s now i)
        · rw [if_pos hcond]
          exact ⟨i, by omega, rfl⟩
        · rw [if_neg hcond]
          exact ih (i + 1) (by omega) (by omega)

/-- When some test level offers a valid current scheduled backup newer
than the last existing date, the escalation loop returns an entry that
is valid and newer than that date. -/
theorem lastScheduledLoop_witness (s : Settings) (now d : Int)
    (lvl : Nat) :
    ∀ k i, i + k = lvl + 1 →
      (∃ t, i ≤ t ∧ t ≤ lvl
        ∧ (currentScheduledBackup s now t).isValid = true
        ∧ d < dateD (currentScheduledBackup s now t)) →
      (lastScheduledLoop s now d lvl (List.range' i k)).isValid = true
      ∧ d < dateD (lastScheduledLoop s now d lvl (List.range' i k)) := by
  intro k
  induction k with
  | zero =>
      intro i hik hw
      obtain ⟨t, h1, h2, _, _⟩ := hw
      exact absurd h2 (by omega)
  | succ k ih =>
      intro i hik hw
      have hr : List.range' i (k + 1) = i :: List.range' (i + 1) k := rfl
      rw [hr]
      unfold lastScheduledLoop
      dsimp only
      by_cases hi : i = lvl
      · rw [if_pos hi]
        obtain ⟨t, h1, h2, h3, h4⟩ := hw
        have ht : t = i := by omega
        subst ht
        exact ⟨h3, h4⟩
      · rw [if_neg hi]
        by_cases hcond : (currentScheduledBackup s now i).isValid = true
            ∧ d < dateD (currentScheduledBackup s now i)
        · rw [if_pos hcond]
          exact hcond
        · rw [if_neg hcond]
          refine ih (i + 1) (by omega) ?_
          obtain ⟨t, h1, h2, h3, h4⟩ := hw
          have hti : t ≠ i := fun he => hcond (he ▸ ⟨h3, h4⟩)
          exact ⟨t, by omega, h2, h3, h4⟩

/-- The last scheduled backup always is one of the current scheduled
backups of some accepted test level. -/
theorem lastScheduledBackup_eq_cur (s : Settings) (disk : List Backup)
    (now : Int) (lvl : Nat) :
    ∃ t, t ≤ lvl ∧ lastScheduledBackup s disk now lvl
      = currentScheduledBackup s now t := by
  unfold lastScheduledBackup
  dsimp only
  rw [List.range_eq_range']
  exact lastScheduledLoop_range s now _ lvl (lvl + 1) 0 (by omega)
    (by omega)

/-- When the last existing backup is valid and some accepted test level
offers a valid current scheduled backup newer than it, the last
scheduled backup is valid and newer than the last existing backup. -/
theorem lastScheduledBackup_gt_lastEx (s : Settings) (disk : List Backup)
    (now : Int) (lvl : Nat)
    (hval : (lastExistingBackup disk now lvl).isValid = true)
    (hw : ∃ t, t ≤ lvl ∧ (currentScheduledBackup s now t).isValid = true
      ∧ dateD (lastExistingBackup disk now lvl)
        < dateD (currentScheduledBackup s now t)) :
    (lastScheduledBackup s disk now lvl).isValid = true
    ∧ dateD (lastExistingBackup disk now lvl)
      < dateD (lastScheduledBackup s disk now lvl) := by
  unfold lastScheduledBackup
  dsimp only
  rw [if_pos hval, List.range_eq_range']
  obtain ⟨t, ht, h1, h2⟩ := hw
  exact lastScheduledLoop_witness s now _ lvl (lvl + 1) 0 (by omega)
    ⟨t, by omega, ht, h1, h2⟩

/-- When every existing backup predates `now₁`, the last existing
backup is the same at any later time. -/
theorem lastExisting_congr (disk : List Backup) (now₁ now₂ : Int)
    (hdisk : ∀ b ∈ disk, b.date ≤ now₁) (h12 : now₁ ≤ now₂) (lvl : Nat) :
    lastExistingBackup disk now₂ lvl = lastExistingBackup disk now₁ lvl := by
  have hfil : ∀ p : Int, now₁ ≤ p →
      (pySorted (disk.map Backup.toProps)).filter
        (fun b => decide (dateD b ≤ p))
      = pySorted (disk.map Backup.toProps) := by
    intro p hp
    apply List.filter_eq_self.mpr
    intro b hb
    have hmem : b ∈ disk.map Backup.toProps :=
      (pySorted_perm _).mem_iff.mp hb
    obtain ⟨bk, hbk, hbe⟩ := List.mem_map.mp hmem
    have hble := hdisk bk hbk
    rw [← hbe]
    simp only [decide_eq_true_eq]
    show bk.date ≤ p
    omega
  unfold lastExistingBackup findExistingBackups
  dsimp only
  rw [hfil now₂ (by omega), hfil now₁ (by omega)]

/-- The next scheduled backup lies strictly after `now`. -/
theorem nextScheduled_gt (s : Settings) (now : Int) (lvl : Nat)
    (b : BackupProperties) (hb : nextScheduledBackup s now lvl = some b) :
    now < dateD b := by
  unfold nextScheduledBackup at hb
  have h := List.find?_some hb
  simp only [Bool.and_eq_true, decide_eq_true_eq] at h
  exact h.2

/-- The overdue value of a reference at or before `now`. -/
theorem overdue_val_nonneg (now dd : Int) (h : dd ≤ now) :
    (0 : ℚ) ≤ ((now - dd : Int) : ℚ) / (microsPerDay : ℚ) := by
  apply div_nonneg
  · exact_mod_cast (by omega : (0 : Int) ≤ now - dd)
  · norm_num [microsPerDay]

/-- The overdue value of a reference strictly after `now`. -/
theorem overdue_val_neg (now dd : Int) (h : now < dd) :
    ((now - dd : Int) : ℚ) / (microsPerDay : ℚ) < 0 := by
  apply div_neg_of_neg_of_pos
  · exact_mod_cast (by omega : (now - dd : Int) < 0)
  · norm_num [microsPerDay]

/-- The overdue count is defined and nonnegative whenever the reference
falls on the last scheduled backup and that backup does not lie in the
future: the cases where the last existing backup is invalid or strictly
older than the last scheduled one. -/
theorem daysOverdue_nonneg_of_branch (s : Settings) (hs : s.Valid)
    (disk : List Backup) (now : Int) (lvl : Nat)
    (hvalid : (lastScheduledBackup s disk now lvl).isValid = true)
    (hdate : dateD (lastScheduledBackup s disk now lvl) ≤ now)
    (hbranch : (lastExistingBackup disk now lvl).isValid = false
      ∨ dateD (lastExistingBackup disk now lvl)
        < dateD (lastScheduledBackup s disk now lvl)) :
    ∃ q, daysOverdue s disk now lvl = some q ∧ 0 ≤ q := by
  have hI : 0 < s.intervalFull := by
    obtain ⟨h1, h2, h3⟩ := hs
    omega
  obtain ⟨next, hnext⟩ := nextScheduledBackup_isSome s disk now lvl hI
  unfold daysOverdue
  rw [hnext]
  dsimp only
  rw [if_neg (by rw [hvalid]; simp)]
  by_cases h2 : (lastExistingBackup disk now lvl).isValid = false
  · rw [if_pos h2]
    exact ⟨_, rfl, overdue_val_nonneg now _ hdate⟩
  · rw [if_neg h2]
    have h3 : dateD (lastExistingBackup disk now lvl)
        < dateD (lastScheduledBackup s disk now lvl) := by
      rcases hbranch with h | h
      · exact absurd h h2
      · exact h
    rw [if_pos h3]
    exact ⟨_, rfl, overdue_val_nonneg now _ hdate⟩

/-- A nonnegative overdue count can only arise from a reference on the
last scheduled backup: the last scheduled backup is valid, and the last
existing backup either is invalid or strictly predates it. -/
theorem daysOverdue_branch_of_nonneg (s : Settings) (disk : List Backup)
    (now : Int) (lvl : Nat) (q : ℚ)
    (hq : daysOverdue s disk now lvl = some q) (h0 : 0 ≤ q) :
    (lastScheduledBackup s disk now lvl).isValid = true
    ∧ ((lastExistingBackup disk now lvl).isValid = false
       ∨ ((lastExistingBackup disk now lvl).isValid = true
          ∧ dateD (lastExistingBackup disk now lvl)
            < dateD (lastScheduledBackup s disk now lvl))) := by
  unfold daysOverdue at hq
  rcases hnext : nextScheduledBackup s now lvl with _ | next
  · rw [hnext] at hq
    cases hq
  · rw [hnext] at hq
    dsimp only at hq
    have hngt : now < dateD next := nextScheduled_gt s now lvl next hnext
    by_cases hb1 : (lastScheduledBackup s disk now lvl).isValid = false
    · rw [if_pos hb1] at hq
      injection hq with hq
      rw [← hq] at h0
      exact absurd h0 (not_le.mpr (overdue_val_neg now _ hngt))
    · have hb1t : (lastScheduledBackup s disk now lvl).isValid = true := by
        cases hbl : (lastScheduledBackup s disk now lvl).isValid
        · exact absurd hbl hb1
        · rfl
      rw [if_neg hb1] at hq
      by_cases hb2 : (lastExistingBackup disk now lvl).isValid = false
      · exact ⟨hb1t, Or.inl hb2⟩
      · have hb2t : (lastExistingBackup disk now lvl).isValid = true := by
          cases hbe : (lastExistingBackup disk now lvl).isValid
          · exact absurd hbe hb2
          · rfl
        rw [if_neg hb2] at hq
        by_cases hb3 : dateD (lastExistingBackup disk now lvl)
            < dateD (lastScheduledBackup s disk now lvl)
        · exact ⟨hb1t, Or.inr ⟨hb2t, hb3⟩⟩
        · rw [if_neg hb3] at hq
          injection hq with hq
          rw [← hq] at h0
          exact absurd h0 (not_le.mpr (overdue_val_neg now _ hngt))

/-- A nonnegative overdue count persists: with fixed disk contents all
dated before `now₁`, a level whose overdue count is nonnegative at
`now₁` keeps a nonnegative overdue count at any later `now₂`. -/
theorem overdue_nonneg_persists (s : Settings) (hs : s.Valid)
    (ha : AlignedSettings s) (disk : List Backup) (now₁ now₂ : Int)
    (hnow : s.startTime ≤ now₁) (h12 : now₁ ≤ now₂)
    (hdisk : ∀ b ∈ disk, b.date ≤ now₁) (lvl : Nat) (q₁ : ℚ)
    (hq₁ : daysOverdue s disk now₁ lvl = some q₁) (h0 : 0 ≤ q₁) :
    ∃ q₂, daysOverdue s disk now₂ lvl = some q₂ ∧ 0 ≤ q₂ := by
  have hnow₂ : s.startTime ≤ now₂ := le_trans hnow h12
  obtain ⟨hval₁, hbr₁⟩ :=
    daysOverdue_branch_of_nonneg s disk now₁ lvl q₁ hq₁ h0
  have hexeq := lastExisting_congr disk now₁ now₂ hdisk h12 lvl
  obtain ⟨t₂, ht₂, hteq₂⟩ := lastScheduledBackup_eq_cur s disk now₂ lvl
  have hspec₂ := currentScheduled_spec s hs ha now₂ hnow₂ t₂
  rcases hbr₁ with hinv | ⟨hvalEx, hlt⟩
  · refine daysOverdue_nonneg_of_branch s hs disk now₂ lvl ?_ ?_
      (Or.inl ?_)
    · rw [hteq₂]
      exact hspec₂.1
    · rw [hteq₂]
      exact hspec₂.2.1
    · rw [hexeq]
      exact hinv
  · obtain ⟨t₁, ht₁, hteq₁⟩ := lastScheduledBackup_eq_cur s disk now₁ lvl
    have hmono := currentScheduled_mono s hs ha now₁ now₂ hnow h12 t₁
    have hv₂ := (currentScheduled_spec s hs ha now₂ hnow₂ t₁).1
    have hgt := lastScheduledBackup_gt_lastEx s disk now₂ lvl
      (by rw [hexeq]; exact hvalEx)
      ⟨t₁, ht₁, hv₂, by rw [hexeq]; rw [hteq₁] at hlt; omega⟩
    refine daysOverdue_nonneg_of_branch s hs disk now₂ lvl hgt.1 ?_
      (Or.inr hgt.2)
    rw [hteq₂]
    exact hspec₂.2.1

/-- C10 (amended): for valid, minute-aligned settings and fixed disk
contents all dated no later than `now₁`, if the decision at `now₁`
yields a real level `L`, the decision at any later `now₂` yields a real
level at most `L` in the order full, diff, incr; in particular it never
regresses to nothing. -/
theorem backup_needed_monotone (s : Settings) (hs : s.Valid)
    (ha : AlignedSettings s) (disk : List Backup) (now₁ now₂ : Int)
    (h12 : now₁ ≤ now₂) (hdisk : ∀ b ∈ disk, b.date ≤ now₁)
    (force : Bool) (L : Nat)
    (hneed : backupNeeded s disk now₁ force = some (some (L : Int))) :
    ∃ M : Nat, M ≤ L ∧ backupNeeded s disk now₂ force
      = some (some (M : Int)) := by
  have hI : 0 < s.intervalFull := by
    obtain ⟨h1, h2, h3⟩ := hs
    omega
  have hnow : s.startTime ≤ now₁ := by
    by_contra hcon
    push_neg at hcon
    have hov := fun lvl => daysOverdue_of_lt_start s disk now₁ lvl hI hcon
    have hneg : (((now₁ - s.startTime : Int) : ℚ)
        / (microsPerDay : ℚ)) < 0 :=
      overdue_val_neg now₁ s.startTime hcon
    unfold backupNeeded at hneed
    rw [hov 0] at hneed
    dsimp only at hneed
    rw [if_neg (not_le.mpr hneg)] at hneed
    rw [hov 1] at hneed
    dsimp only at hneed
    rw [if_neg (not_le.mpr hneg)] at hneed
    rw [hov 2] at hneed
    dsimp only at hneed
    rw [if_neg (not_le.mpr hneg)] at hneed
    rw [if_neg (by rintro ⟨_, hle⟩; omega)] at hneed
    injection hneed with hneed
    exact Option.noConfusion hneed
  obtain ⟨d0, h0⟩ := daysOverdue_isSome s disk now₁ 0 hI
  obtain ⟨d1, h1⟩ := daysOverdue_isSome s disk now₁ 1 hI
  obtain ⟨d2, h2⟩ := daysOverdue_isSome s disk now₁ 2 hI
  have hLq : ∃ qL, daysOverdue s disk now₁ L = some qL ∧ 0 ≤ qL
      ∧ L ≤ 2 := by
    unfold backupNeeded at hneed
    rw [h0] at hneed
    dsimp only at hneed
    by_cases c0 : (0 : ℚ) ≤ d0
    · rw [if_pos c0] at hneed
      injection hneed with hneed
      injection hneed with hneed
      have hL0 : L = 0 := by exact_mod_cast hneed.symm
      subst hL0
      exact ⟨d0, h0, c0, by omega⟩
    · rw [if_neg c0, h1] at hneed
      dsimp only at hneed
      by_cases c1 : (0 : ℚ) ≤ d1
      · rw [if_pos c1] at hneed
        injection hneed with hneed
        injection hneed with hneed
        have hL1 : L = 1 := by exact_mod_cast hneed.symm
        subst hL1
        exact ⟨d1, h1, c1, by omega⟩
      · rw [if_neg c1, h2] at hneed
        dsimp only at hneed
        by_cases c2 : (0 : ℚ) ≤ d2
        · rw [if_pos c2] at hneed
          injection hneed with hneed
          injection hneed with hneed
          have hL2 : L = 2 := by exact_mod_cast hneed.symm
          subst hL2
          exact ⟨d2, h2, c2, by omega⟩
        · rw [if_neg c2] at hneed
          by_cases cf : force = true ∧ s.startTime ≤ now₁
          · rw [if_pos cf] at hneed
            injection hneed with hneed
            injection hneed with hneed
            exfalso
            omega
          · rw [if_neg cf] at hneed
            injection hneed with hneed
            exact Option.noConfusion hneed
  obtain ⟨qL, hqL, h0L, hL2⟩ := hLq
  obtain ⟨q₂, hq₂, h0₂⟩ := overdue_nonneg_persists s hs ha disk now₁ now₂
    hnow h12 hdisk L qL hqL h0L
  obtain ⟨e0, g0⟩ := daysOverdue_isSome s disk now₂ 0 hI
  obtain ⟨e1, g1⟩ := daysOverdue_isSome s disk now₂ 1 hI
  obtain ⟨e2, g2⟩ := daysOverdue_isSome s disk now₂ 2 hI
  unfold backupNeeded
  rw [g0]
  dsimp only
  by_cases k0 : (0 : ℚ) ≤ e0
  · rw [if_pos k0]
    exact ⟨0, by omega, by norm_num⟩
  · have hLne0 : L ≠ 0 := by
      intro hL
      subst hL
      rw [g0] at hq₂
      injection hq₂ with h
      rw [← h] at h0₂
      exact k0 h0₂
    rw [if_neg k0, g1]
    dsimp only
    by_cases k1 : (0 : ℚ) ≤ e1
    · rw [if_pos k1]
      exact ⟨1, by omega, by norm_num⟩
    · have hLne1 : L ≠ 1 := by
        intro hL
        subst hL
        rw [g1] at hq₂
        injection hq₂ with h
        rw [← h] at h0₂
        exact k1 h0₂
      have hLeq : L = 2 := by omega
      subst hLeq
      rw [g2] at hq₂
      injection hq₂ with h
      rw [← h] at h0₂
      rw [if_neg k1, g2]
      dsimp only
      rw [if_pos h0₂]
      exact ⟨2, by omega, by norm_num⟩

/-- One-step unfolding of `last_scheduled_backup` into the escalation
loop over the test levels. -/
theorem lastScheduledBackup_unfold (s : Settings) (disk : List Backup)
    (now : Int) (lvl : Nat) :
    lastScheduledBackup s disk now lvl = lastScheduledLoop s now
      (if (lastExistingBackup disk now lvl).isValid = true
        then dateD (lastExistingBackup disk now lvl) else epoch1970) lvl
      (List.range (lvl + 1)) := rfl

/-- The escalation loop returns the current scheduled backup of the
requested level as soon as it reaches it. -/
theorem lastScheduledLoop_cons_eq (s : Settings) (now d : Int)
    (lvl t : Nat) (rest : List Nat) (h : t = lvl) :
    lastScheduledLoop s now d lvl (t :: rest)
      = currentScheduledBackup s now t := by
  unfold lastScheduledLoop
  dsimp only
  rw [if_pos h]

/-- The escalation loop skips a lower test level whose current
scheduled backup does not beat the last existing date. -/
theorem lastScheduledLoop_cons_skip (s : Settings) (now d : Int)
    (lvl t : Nat) (rest : List Nat) (h : ¬ t = lvl)
    (hc : ¬ ((currentScheduledBackup s now t).isValid = true
      ∧ d < dateD (currentScheduledBackup s now t))) :
    lastScheduledLoop s now d lvl (t :: rest)
      = lastScheduledLoop s now d lvl rest := by
  conv_lhs => unfold lastScheduledLoop
  dsimp only
  rw [if_neg h, if_neg hc]

/-- Witness for C10 (amended): aligned settings with full, diff and
incr intervals of three, two and one minutes, an empty disk, and the
decision checked at the start time and one minute later. -/
theorem backup_needed_monotone_witness :
    Settings.Valid ⟨0, 180000000, 120000000, 60000000⟩
    ∧ AlignedSettings ⟨0, 180000000, 120000000, 60000000⟩
    ∧ ((0 : Int) ≤ 60000000)
    ∧ (∀ b ∈ ([] : List Backup), b.date ≤ (0 : Int))
    ∧ backupNeeded ⟨0, 180000000, 120000000, 60000000⟩ [] 0 false
        = some (some ((0 : Nat) : Int))
    ∧ (∃ M : Nat, M ≤ 0
        ∧ backupNeeded ⟨0, 180000000, 120000000, 60000000⟩ [] 60000000
            false = some (some (M : Int))) := by
  have hv : Settings.Valid ⟨0, 180000000, 120000000, 60000000⟩ :=
    ⟨by norm_num, by norm_num, by norm_num⟩
  have ha : AlignedSettings ⟨0, 180000000, 120000000, 60000000⟩ :=
    ⟨⟨0, by norm_num [microsPerMinute]⟩, ⟨3, by norm_num [microsPerMinute]⟩,
      ⟨2, by norm_num [microsPerMinute]⟩, ⟨1, by norm_num [microsPerMinute]⟩⟩
  have hb1 : fillLoop 120000000 180000000 240000000 = [] :=
    fillLoop_of_stop _ _ _ (by norm_num)
  have hb2 : fillLoop 120000000 180000000 120000000 = [120000000] := by
    rw [fillLoop_of_step _ _ _ (by norm_num)]
    norm_num [hb1]
  have hb3 : fillLoop 60000000 120000000 120000000 = [] :=
    fillLoop_of_stop _ _ _ (by norm_num)
  have hb4 : fillLoop 60000000 120000000 60000000 = [60000000] := by
    rw [fillLoop_of_step _ _ _ (by norm_num)]
    norm_num [hb3]
  have hb5 : fillLoop 60000000 180000000 180000000 = [] :=
    fillLoop_of_stop _ _ _ (by norm_num)
  have hstep1w : fillSchedule ⟨0, 180000000, 120000000, 60000000⟩
      ([⟨some 0, 0⟩, ⟨some 180000000, 0⟩] : List BackupProperties) 1
      = [⟨some 0, 0⟩, ⟨some 120000000, 1⟩, ⟨some 180000000, 0⟩] := by
    unfold fillSchedule
    simp only [fillPairs, dateD]
    norm_num [hb2]
    decide
  have hstep2w : fillSchedule ⟨0, 180000000, 120000000, 60000000⟩
      ([⟨some 0, 0⟩, ⟨some 120000000, 1⟩, ⟨some 180000000, 0⟩]
        : List BackupProperties) 2
      = [⟨some 0, 0⟩, ⟨some 60000000, 2⟩, ⟨some 120000000, 1⟩,
          ⟨some 180000000, 0⟩] := by
    unfold fillSchedule
    simp only [fillPairs, dateD]
    norm_num [hb4, hb5]
    decide
  have hU : advancePast 180000000 0 0 = 180000000 := by
    rw [advancePast_of_step _ _ _ (by norm_num)]
    norm_num
    rw [advancePast_of_stop _ _ _ (by norm_num)]
  have hsched : calculateBackupSchedule ⟨0, 180000000, 120000000,
      60000000⟩ 0
      = [⟨some 0, 0⟩, ⟨some 60000000, 2⟩, ⟨some 120000000, 1⟩,
          ⟨some 180000000, 0⟩] := by
    unfold calculateBackupSchedule
    dsimp only
    rw [hU]
    norm_num
    rw [hstep1w, hstep2w]
  have hcur0 : currentScheduledBackup ⟨0, 180000000, 120000000,
      60000000⟩ 0 0 = ⟨some 0, 0⟩ := by
    unfold currentScheduledBackup
    rw [hsched]
    decide
  have hnext0 : nextScheduledBackup ⟨0, 180000000, 120000000,
      60000000⟩ 0 0 = some ⟨some 180000000, 0⟩ := by
    unfold nextScheduledBackup
    rw [hsched]
    decide
  have hls0 : lastScheduledBackup ⟨0, 180000000, 120000000, 60000000⟩
      [] 0 0 = ⟨some 0, 0⟩ := by
    rw [lastScheduledBackup_unfold]
    rw [show List.range 1 = [0] from rfl]
    rw [lastScheduledLoop_cons_eq _ _ _ _ _ _ rfl]
    exact hcur0
  have hdo0 : daysOverdue ⟨0, 180000000, 120000000, 60000000⟩ [] 0 0
      = some 0 := by
    unfold daysOverdue
    rw [hnext0]
    dsimp only
    rw [hls0]
    rw [if_neg (by decide)]
    rw [if_pos (by decide)]
    norm_num [dateD, Option.getD, microsPerDay]
  have hneed : backupNeeded ⟨0, 180000000, 120000000, 60000000⟩ [] 0
      false = some (some ((0 : Nat) : Int)) := by
    unfold backupNeeded
    rw [hdo0]
    dsimp only
    rw [if_pos (by norm_num)]
    norm_num
  exact ⟨hv, ha, by norm_num, by simp, hneed,
    backup_needed_monotone _ hv ha [] 0 60000000 (by norm_num) (by simp)
      false 0 hneed⟩

/-- Counterexample to C10 as stated: valid settings (full every 10
days, diff every 3, incr every 1, start at epoch) with one full backup
on disk dated day 5 — in the future of `now₁` = day 4.  At day 4 the
decision is Full; at day 5.5 the disk backup covers every level and the
decision regresses to None, although no backup was created in
between. -/
theorem backup_needed_monotone_counterexample :
    Settings.Valid ⟨0, 864000000000, 259200000000, 86400000000⟩
    ∧ ((345600000000 : Int) < 475200000000)
    ∧ backupNeeded ⟨0, 864000000000, 259200000000, 86400000000⟩
        [⟨432000000000, 0⟩] 345600000000 false = some (some 0)
    ∧ backupNeeded ⟨0, 864000000000, 259200000000, 86400000000⟩
        [⟨432000000000, 0⟩] 475200000000 false = some none := by
  have hc1 : fillLoop 259200000000 864000000000 1036800000000 = [] :=
    fillLoop_of_stop _ _ _ (by norm_num)
  have hc2 : fillLoop 259200000000 864000000000 777600000000
      = [777600000000] := by
    rw [fillLoop_of_step _ _ _ (by norm_num)]
    norm_num [hc1]
  have hc3 : fillLoop 259200000000 864000000000 518400000000
      = [518400000000, 777600000000] := by
    rw [fillLoop_of_step _ _ _ (by norm_num)]
    norm_num [hc2]
  have hc4 : fillLoop 259200000000 864000000000 259200000000
      = [259200000000, 518400000000, 777600000000] := by
    rw [fillLoop_of_step _ _ _ (by norm_num)]
    norm_num [hc3]
  have hd1 : fillLoop 86400000000 259200000000 259200000000 = [] :=
    fillLoop_of_stop _ _ _ (by norm_num)
  have hd2 : fillLoop 86400000000 259200000000 172800000000
      = [172800000000] := by
    rw [fillLoop_of_step _ _ _ (by norm_num)]
    norm_num [hd1]
  have hd3 : fillLoop 86400000000 259200000000 86400000000
      = [86400000000, 172800000000] := by
    rw [fillLoop_of_step _ _ _ (by norm_num)]
    norm_num [hd2]
  have he1 : fillLoop 86400000000 518400000000 518400000000 = [] :=
    fillLoop_of_stop _ _ _ (by norm_num)
  have he2 : fillLoop 86400000000 518400000000 432000000000
      = [432000000000] := by
    rw [fillLoop_of_step _ _ _ (by norm_num)]
    norm_num [he1]
  have he3 : fillLoop 86400000000 518400000000 345600000000
      = [345600000000, 432000000000] := by
    rw [fillLoop_of_step _ _ _ (by norm_num)]
    norm_num [he2]
  have hf1b : fillLoop 86400000000 777600000000 777600000000 = [] :=
    fillLoop_of_stop _ _ _ (by norm_num)
  have hf2b : fillLoop 86400000000 777600000000 691200000000
      = [691200000000] := by
    rw [fillLoop_of_step _ _ _ (by norm_num)]
    norm_num [hf1b]
  have hf3b : fillLoop 86400000000 777600000000 604800000000
      = [604800000000, 691200000000] := by
    rw [fillLoop_of_step _ _ _ (by norm_num)]
    norm_num [hf2b]
  have hg1 : fillLoop 86400000000 864000000000 864000000000 = [] :=
    fillLoop_of_stop _ _ _ (by norm_num)
  have hstep1c : fillSchedule ⟨0, 864000000000, 259200000000,
      86400000000⟩
      ([⟨some 0, 0⟩, ⟨some 864000000000, 0⟩] : List BackupProperties) 1
      = [⟨some 0, 0⟩, ⟨some 259200000000, 1⟩, ⟨some 518400000000, 1⟩,
          ⟨some 777600000000, 1⟩, ⟨some 864000000000, 0⟩] := by
    unfold fillSchedule
    simp only [fillPairs, dateD]
    norm_num [hc4]
    decide
  have hstep2c : fillSchedule ⟨0, 864000000000, 259200000000,
      86400000000⟩
      ([⟨some 0, 0⟩, ⟨some 259200000000, 1⟩, ⟨some 518400000000, 1⟩,
          ⟨some 777600000000, 1⟩, ⟨some 864000000000, 0⟩]
        : List BackupProperties) 2
      = [⟨some 0, 0⟩, ⟨some 86400000000, 2⟩, ⟨some 172800000000, 2⟩,
          ⟨some 259200000000, 1⟩, ⟨some 345600000000, 2⟩,
          ⟨some 432000000000, 2⟩, ⟨some 518400000000, 1⟩,
          ⟨some 604800000000, 2⟩, ⟨some 691200000000, 2⟩,
          ⟨some 777600000000, 1⟩, ⟨some 864000000000, 0⟩] := by
    unfold fillSchedule
    simp only [fillPairs, dateD]
    norm_num [hd3, he3, hf3b, hg1]
    decide
  have hU₁ : advancePast 864000000000 345600000000 0 = 864000000000 := by
    rw [advancePast_of_step _ _ _ (by norm_num)]
    norm_num
    rw [advancePast_of_stop _ _ _ (by norm_num)]
  have hU₂ : advancePast 864000000000 475200000000 0 = 864000000000 := by
    rw [advancePast_of_step _ _ _ (by norm_num)]
    norm_num
    rw [advancePast_of_stop _ _ _ (by norm_num)]
  have hsched₁ : calculateBackupSchedule ⟨0, 864000000000, 259200000000,
      86400000000⟩ 345600000000
      = [⟨some 0, 0⟩, ⟨some 86400000000, 2⟩, ⟨some 172800000000, 2⟩,
          ⟨some 259200000000, 1⟩, ⟨some 345600000000, 2⟩,
          ⟨some 432000000000, 2⟩, ⟨some 518400000000, 1⟩,
          ⟨some 604800000000, 2⟩, ⟨some 691200000000, 2⟩,
          ⟨some 777600000000, 1⟩, ⟨some 864000000000, 0⟩] := by
    unfold calculateBackupSchedule
    dsimp only
    rw [hU₁]
    norm_num
    rw [hstep1c, hstep2c]
  have hsched₂ : calculateBackupSchedule ⟨0, 864000000000, 259200000000,
      86400000000⟩ 475200000000
      = [⟨some 0, 0⟩, ⟨some 86400000000, 2⟩, ⟨some 172800000000, 2⟩,
          ⟨some 259200000000, 1⟩, ⟨some 345600000000, 2⟩,
          ⟨some 432000000000, 2⟩, ⟨some 518400000000, 1⟩,
          ⟨some 604800000000, 2⟩, ⟨some 691200000000, 2⟩,
          ⟨some 777600000000, 1⟩, ⟨some 864000000000, 0⟩] := by
    unfold calculateBackupSchedule
    dsimp only
    rw [hU₂]
    norm_num
    rw [hstep1c, hstep2c]
  have hcur10 : currentScheduledBackup ⟨0, 864000000000, 259200000000,
      86400000000⟩ 345600000000 0 = ⟨some 0, 0⟩ := by
    unfold currentScheduledBackup
    rw [hsched₁]
    decide
  have hnext10 : nextScheduledBackup ⟨0, 864000000000, 259200000000,
      86400000000⟩ 345600000000 0 = some ⟨some 864000000000, 0⟩ := by
    unfold nextScheduledBackup
    rw [hsched₁]
    decide
  have hls10 : lastScheduledBackup ⟨0, 864000000000, 259200000000,
      86400000000⟩ [⟨432000000000, 0⟩] 345600000000 0 = ⟨some 0, 0⟩ := by
    rw [lastScheduledBackup_unfold]
    rw [show List.range 1 = [0] from rfl]
    rw [lastScheduledLoop_cons_eq _ _ _ _ _ _ rfl]
    exact hcur10
  have hdo10 : daysOverdue ⟨0, 864000000000, 259200000000, 86400000000⟩
      [⟨432000000000, 0⟩] 345600000000 0 = some 4 := by
    unfold daysOverdue
    rw [hnext10]
    dsimp only
    rw [hls10]
    rw [if_neg (by decide)]
    rw [if_pos (by decide)]
    norm_num [dateD, Option.getD, microsPerDay]
  have hbn₁ : backupNeeded ⟨0, 864000000000, 259200000000, 86400000000⟩
      [⟨432000000000, 0⟩] 345600000000 false = some (some 0) := by
    unfold backupNeeded
    rw [hdo10]
    dsimp only
    rw [if_pos (by norm_num)]
  have hcur20 : currentScheduledBackup ⟨0, 864000000000, 259200000000,
      86400000000⟩ 475200000000 0 = ⟨some 0, 0⟩ := by
    unfold currentScheduledBackup
    rw [hsched₂]
    decide
  have hcur21 : currentScheduledBackup ⟨0, 864000000000, 259200000000,
      86400000000⟩ 475200000000 1 = ⟨some 259200000000, 1⟩ := by
    unfold currentScheduledBackup
    rw [hsched₂]
    decide
  have hcur22 : currentScheduledBackup ⟨0, 864000000000, 259200000000,
      86400000000⟩ 475200000000 2 = ⟨some 432000000000, 2⟩ := by
    unfold currentScheduledBackup
    rw [hsched₂]
    decide
  have hnext20 : nextScheduledBackup ⟨0, 864000000000, 259200000000,
      86400000000⟩ 475200000000 0 = some ⟨some 864000000000, 0⟩ := by
    unfold nextScheduledBackup
    rw [hsched₂]
    decide
  have hnext21 : nextScheduledBackup ⟨0, 864000000000, 259200000000,
      86400000000⟩ 475200000000 1 = some ⟨some 518400000000, 1⟩ := by
    unfold nextScheduledBackup
    rw [hsched₂]
    decide
  have hnext22 : nextScheduledBackup ⟨0, 864000000000, 259200000000,
      86400000000⟩ 475200000000 2 = some ⟨some 518400000000, 1⟩ := by
    unfold nextScheduledBackup
    rw [hsched₂]
    decide
  have hls20 : lastScheduledBackup ⟨0, 864000000000, 259200000000,
      86400000000⟩ [⟨432000000000, 0⟩] 475200000000 0 = ⟨some 0, 0⟩ := by
    rw [lastScheduledBackup_unfold]
    rw [show List.range 1 = [0] from rfl]
    rw [lastScheduledLoop_cons_eq _ _ _ _ _ _ rfl]
    exact hcur20
  have hls21 : lastScheduledBackup ⟨0, 864000000000, 259200000000,
      86400000000⟩ [⟨432000000000, 0⟩] 475200000000 1
      = ⟨some 259200000000, 1⟩ := by
    rw [lastScheduledBackup_unfold]
    rw [show List.range 2 = [0, 1] from rfl]
    rw [lastScheduledLoop_cons_skip _ _ _ _ _ _ (by norm_num)
      (by rw [hcur20]; decide)]
    rw [lastScheduledLoop_cons_eq _ _ _ _ _ _ rfl]
    exact hcur21
  have hls22 : lastScheduledBackup ⟨0, 864000000000, 259200000000,
      86400000000⟩ [⟨432000000000, 0⟩] 475200000000 2
      = ⟨some 432000000000, 2⟩ := by
    rw [lastScheduledBackup_unfold]
    rw [show List.range 3 = [0, 1, 2] from rfl]
    rw [lastScheduledLoop_cons_skip _ _ _ _ _ _ (by norm_num)
      (by rw [hcur20]; decide)]
    rw [lastScheduledLoop_cons_skip _ _ _ _ _ _ (by norm_num)
      (by rw [hcur21]; decide)]
    rw [lastScheduledLoop_cons_eq _ _ _ _ _ _ rfl]
    exact hcur22
  have hdo20 : daysOverdue ⟨0, 864000000000, 259200000000, 86400000000⟩
      [⟨432000000000, 0⟩] 475200000000 0 = some (-(9 / 2)) := by
    unfold daysOverdue
    rw [hnext20]
    dsimp only
    rw [hls20]
    rw [if_neg (by decide)]
    rw [if_neg (by decide)]
    rw [if_neg (by decide)]
    norm_num [dateD, Option.getD, microsPerDay]
  have hdo21 : daysOverdue ⟨0, 864000000000, 259200000000, 86400000000⟩
      [⟨432000000000, 0⟩] 475200000000 1 = some (-(1 / 2)) := by
    unfold daysOverdue
    rw [hnext21]
    dsimp only
    rw [hls21]
    rw [if_neg (by decide)]
    rw [if_neg (by decide)]
    rw [if_neg (by decide)]
    norm_num [dateD, Option.getD, microsPerDay]
  have hdo22 : daysOverdue ⟨0, 864000000000, 259200000000, 86400000000⟩
      [⟨432000000000, 0⟩] 475200000000 2 = some (-(1 / 2)) := by
    unfold daysOverdue
    rw [hnext22]
    dsimp only
    rw [hls22]
    rw [if_neg (by decide)]
    rw [if_neg (by decide)]
    rw [if_neg (by decide)]
    norm_num [dateD, Option.getD, microsPerDay]
  have hbn₂ : backupNeeded ⟨0, 864000000000, 259200000000, 86400000000⟩
      [⟨432000000000, 0⟩] 475200000000 false = some none := by
    unfold backupNeeded
    rw [hdo20]
    dsimp only
    rw [if_neg (by norm_num)]
    rw [hdo21]
    dsimp only
    rw [if_neg (by norm_num)]
    rw [hdo22]
    dsimp only
    rw [if_neg (by norm_num)]
    rw [if_neg (by simp)]
  exact ⟨⟨by norm_num, by norm_num, by norm_num⟩, by norm_num, hbn₁, hbn₂⟩

end Lalikan
